import Mathlib

/-!
Verification of the exchange_funding repository: shallow embedding of the
paginated funding-rate fetchers in `fetch_binance_funding.py`,
`fetch_bybit_funding.py`, `fetch_hyperliquid_funding.py` (the shared module
`fetch_funding_rates.py` contains the same two loops verbatim), together
with proofs about the spec claims.

Network interaction is modelled by an oracle: a list of page responses
consumed one per request, an exhausted oracle behaving like a failed
request.  Machine integers are `Int` (Python integers are unbounded, so no
wrap-around is modelled).
-/

/-- A raw JSON field value as the fetchers see it after the candidate-key
probe.  `asInt n` is a value on which Python `int(路)` succeeds with result
`n` (an int, a float with that truncation, or a decimal string); `asIso ms`
is a value on which `int(路)` raises but
`datetime.fromisoformat(str(路).replace("Z", "+00:00"))` succeeds and
denotes `ms` milliseconds since the epoch (`int(dt.timestamp() * 1000)`);
`bad` raises in both; `missing` is an absent key / `None`.  Present values
are modelled as truthy for the `or`-chains (the zero-int edge case plays no
role in any claim). -/
inductive RawVal where
  | missing : RawVal
  | asInt : Int → RawVal
  | asIso : Int → RawVal
  | bad : RawVal
deriving DecidableEq, Repr

/-- Result of Python `int(v)`: `some n` on success, `none` when it raises. -/
def pyIntOf : RawVal → Option Int
  | RawVal.asInt n => Option.some n
  | _ => Option.none

/-- Result of the ISO-8601 fallback
`int(datetime.fromisoformat(str(v).replace("Z", "+00:00")).timestamp() * 1000)`:
`some ms` on success, `none` when it raises. -/
def isoMsOf : RawVal → Option Int
  | RawVal.asIso ms => Option.some ms
  | _ => Option.none

/-- Python `a or b` over raw field values (used for the candidate-key
chains); a present value is treated as truthy. -/
def pyOr : RawVal → RawVal → RawVal
  | RawVal.missing, b => b
  | a, _ => a

/-!
## Exact UTC calendar arithmetic

`iso_from_ms` in the sources renders `funding_time_ms` through Python
`datetime`: `utcfromtimestamp(ms / 1000.0).isoformat() + "Z"` in the
Binance/Bybit scripts or the equivalent
`fromtimestamp(ms / 1000.0, UTC).isoformat().replace("+00:00", "Z")` in the
Hyperliquid script (an aware datetime renders `+00:00`, which the replace
turns into the same string).  Modelled from the spec: the conversion is
`datetime`'s proleptic Gregorian calendar (CPython `_ord2ymd` divmod
cascade), carried out here in exact integer arithmetic; the source divides
by `1000.0` in binary floating point, which is exact for the magnitudes the
exchanges return, and Python's `datetime` additionally restricts years to
1..9999 while the model is total over `Int`.
-/

/-- Leap year predicate of the proleptic Gregorian calendar
(`y % 4 == 0 and (y % 100 != 0 or y % 400 == 0)`). -/
def isLeapYear (y : Int) : Bool :=
  y % 4 == 0 && (y % 100 != 0 || y % 400 == 0)

/-- Days in the months before 1-based month `m` (`0` for January), with the
leap-day included from March on when `L` is set. -/
def daysBeforeMonth (L : Bool) (m : Nat) : Nat :=
  let l : Nat := if L then 1 else 0
  match m with
  | 1 => 0
  | 2 => 31
  | 3 => 59 + l
  | 4 => 90 + l
  | 5 => 120 + l
  | 6 => 151 + l
  | 7 => 181 + l
  | 8 => 212 + l
  | 9 => 243 + l
  | 10 => 273 + l
  | 11 => 304 + l
  | 12 => 334 + l
  | _ => 365 + l

/-- Month and 1-based day for a 0-based day-of-year `doy` (with leap flag
`L`), by the month-table interval chain. -/
def monthDayOfDoy (L : Bool) (doy : Nat) : Nat × Nat :=
  let l : Nat := if L then 1 else 0
  if doy < 31 then (1, doy + 1)
  else if doy < 59 + l then (2, doy - 31 + 1)
  else if doy < 90 + l then (3, doy - (59 + l) + 1)
  else if doy < 120 + l then (4, doy - (90 + l) + 1)
  else if doy < 151 + l then (5, doy - (120 + l) + 1)
  else if doy < 181 + l then (6, doy - (151 + l) + 1)
  else if doy < 212 + l then (7, doy - (181 + l) + 1)
  else if doy < 243 + l then (8, doy - (212 + l) + 1)
  else if doy < 273 + l then (9, doy - (243 + l) + 1)
  else if doy < 304 + l then (10, doy - (273 + l) + 1)
  else if doy < 334 + l then (11, doy - (304 + l) + 1)
  else (12, doy - (334 + l) + 1)

/-- CPython `_ord2ymd` cascade: 0-based day number `n` (days since
0001-01-01 of the proleptic Gregorian calendar, negative allowed) to
`(year, month, day)`. -/
def ord2ymd (n : Int) : Int × Nat × Nat :=
  let n400 : Int := n / 146097
  let r : Nat := (n % 146097).toNat
  let n100 : Nat := r / 36524
  let r2 : Nat := r % 36524
  let n4 : Nat := r2 / 1461
  let r3 : Nat := r2 % 1461
  let n1 : Nat := r3 / 365
  let r4 : Nat := r3 % 365
  if n1 = 4 ∨ n100 = 4 then
    (n400 * 400 + (100 * n100 + 4 * n4 + n1 : Nat), 12, 31)
  else
    let year : Int := n400 * 400 + (100 * n100 + 4 * n4 + n1 : Nat) + 1
    let md := monthDayOfDoy (isLeapYear year) r4
    (year, md.1, md.2)

/-- CPython `_ymd2ord` (shifted by one): days before year `y` plus days
before month `m` plus day-of-month, 0-based. -/
def ymd2ord (y : Int) (m d : Nat) : Int :=
  365 * (y - 1) + (y - 1) / 4 - (y - 1) / 100 + (y - 1) / 400
    + (daysBeforeMonth (isLeapYear y) m + (d - 1) : Nat)

/-- A UTC wall-clock instant as Python `datetime` holds it. -/
structure UtcDateTime where
  year : Int
  month : Nat
  day : Nat
  hour : Nat
  minute : Nat
  second : Nat
  micro : Nat
deriving DecidableEq, Repr

/-- Day number of 1970-01-01 (days since 0001-01-01). -/
def epochDayNumber : Int := 719162

/-- The UTC datetime denoted by `ms` milliseconds since the epoch
(`datetime.utcfromtimestamp(ms / 1000.0)`, exact arithmetic). -/
def dt_from_ms (t : Int) : UtcDateTime :=
  let us : Int := t * 1000
  let dayN : Int := us / 86400000000
  let rem : Nat := (us % 86400000000).toNat
  let ymd := ord2ymd (dayN + epochDayNumber)
  { year := ymd.1
    month := ymd.2.1
    day := ymd.2.2
    hour := rem / 3600000000
    minute := rem % 3600000000 / 60000000
    second := rem % 60000000 / 1000000
    micro := rem % 1000000 }

/-- Decoding a UTC datetime back to epoch milliseconds
(`int(dt.replace(tzinfo=UTC).timestamp() * 1000)`, exact arithmetic). -/
def ms_from_dt (dt : UtcDateTime) : Int :=
  ((ymd2ord dt.year dt.month dt.day - epochDayNumber) * 86400000000
      + (dt.hour * 3600000000 + dt.minute * 60000000
          + dt.second * 1000000 + dt.micro : Nat)) / 1000

/-- Left-pad the decimal rendering of `n` with zeros to width `w`. -/
def padNat (w n : Nat) : String :=
  let s := Nat.repr n
  String.pushn "" '0' (w - s.length) ++ s

/-- Python `datetime.isoformat()` (microseconds omitted when zero) with the
`Z` suffix the scripts append. -/
def renderIso (dt : UtcDateTime) : String :=
  padNat 4 dt.year.toNat ++ "-" ++ padNat 2 dt.month ++ "-" ++ padNat 2 dt.day
    ++ "T" ++ padNat 2 dt.hour ++ ":" ++ padNat 2 dt.minute ++ ":"
    ++ padNat 2 dt.second
    ++ (if dt.micro = 0 then "" else "." ++ padNat 6 dt.micro) ++ "Z"

/-- `iso_from_ms` of the three scripts (all render the same string). -/
def iso_from_ms (ms : Int) : String :=
  renderIso (dt_from_ms ms)

/-- The normalized output row shared by all three fetchers
(`funding_rate` is carried as supplied, `none` modelling Python `None`). -/
structure FundingRecord where
  exchange : String
  symbol : String
  funding_time_ms : Int
  funding_time_iso : String
  funding_rate : Option String
deriving DecidableEq, Repr

/-!
## Binance fetcher (`fetch_binance_funding.py`, lines 53-89)

Forward pagination with `limit = 1000`; `int(item.get("fundingTime"))` is
used raw (no seconds/ISO normalization), and an unparseable value raises
into the surrounding `except`, which breaks the whole loop keeping the
records appended so far.
-/

/-- One element of the Binance JSON page: the value under `"fundingTime"`
and the value under `"fundingRate"`. -/
structure BinItem where
  fundingTime : RawVal
  fundingRate : Option String
deriving DecidableEq, Repr

/-- One Binance page request outcome: `fail` is any exception out of
`requests.get` / `raise_for_status` / `json()`; `notList` is a decoded body
that is not a JSON list; `page` is a decoded list. -/
inductive BinResp where
  | fail : BinResp
  | notList : BinResp
  | page : List BinItem → BinResp
deriving DecidableEq, Repr

/-- Parameters of one Binance page request. -/
structure BinRequest where
  symbol : String
  startTime : Int
  endTime : Int
  limit : Nat
deriving DecidableEq, Repr

def binanceLimit : Nat := 1000

/-- Record built in the Binance item loop. -/
def binanceRecord (symbol : String) (ft : Int) (fr : Option String) :
    FundingRecord :=
  { exchange := "binance"
    symbol := symbol
    funding_time_ms := ft
    funding_time_iso := iso_from_ms ft
    funding_rate := fr }

/-- The Binance per-item loop body: appends a record per item until
`int(item.get("fundingTime"))` raises; the second component is `false`
exactly when an exception escaped into the outer handler (dropping the rest
of the page and ending the pagination). -/
def binProcess (symbol : String) : List BinItem → List FundingRecord × Bool
  | [] => ([], true)
  | it :: rest =>
    match pyIntOf it.fundingTime with
    | Option.none => ([], false)
    | Option.some ft =>
      (binanceRecord symbol ft it.fundingRate :: (binProcess symbol rest).1,
        (binProcess symbol rest).2)

/-- Cursor value `int(data[-1].get("fundingTime"))` of a Binance page. -/
def binLastT (items : List BinItem) : Option Int :=
  match items.getLast? with
  | Option.none => Option.none
  | Option.some it => pyIntOf it.fundingTime

/-- The Binance `while True` pagination loop over the response oracle,
returning the accumulated records and the trace of issued page requests.
An exhausted oracle behaves like a failed request. -/
def binLoop (symbol : String) (endMs : Int) :
    List BinResp → Int → List FundingRecord × List BinRequest
  | [], curStart => ([], [⟨symbol, curStart, endMs, binanceLimit⟩])
  | resp :: rest, curStart =>
    match resp with
    | BinResp.fail => ([], [⟨symbol, curStart, endMs, binanceLimit⟩])
    | BinResp.notList => ([], [⟨symbol, curStart, endMs, binanceLimit⟩])
    | BinResp.page items =>
      if items.length = 0 then ([], [⟨symbol, curStart, endMs, binanceLimit⟩])
      else
        if (binProcess symbol items).2 then
          if items.length < binanceLimit then
            ((binProcess symbol items).1,
              [⟨symbol, curStart, endMs, binanceLimit⟩])
          else
            match binLastT items with
            | Option.none =>
              ((binProcess symbol items).1,
                [⟨symbol, curStart, endMs, binanceLimit⟩])
            | Option.some lastTime =>
              ((binProcess symbol items).1
                  ++ (binLoop symbol endMs rest (lastTime + 1)).1,
                ⟨symbol, curStart, endMs, binanceLimit⟩
                  :: (binLoop symbol endMs rest (lastTime + 1)).2)
        else
          ((binProcess symbol items).1,
            [⟨symbol, curStart, endMs, binanceLimit⟩])

/-- `fetch_binance_funding(symbol, start_ms, end_ms)` against a response
oracle; this is also the sequence persisted per (binance, symbol) group. -/
def fetch_binance_funding (symbol : String) (startMs endMs : Int)
    (pages : List BinResp) : List FundingRecord × List BinRequest :=
  binLoop symbol endMs pages startMs

/-!
## Bybit fetcher (`fetch_bybit_funding.py`, lines 47-106)

Backward pagination with `limit = 200`; per-item timestamps go through the
seconds-to-milliseconds normalization with an ISO-8601 fallback, and
unparseable items are skipped with `continue`.  The cursor is read from the
`"fundingRateTimestamp"` key of the last item specifically.  `main` (lines
143-148) reverses the returned rows before persisting.
-/

/-- One element of a Bybit page: the value under `"fundingRateTimestamp"`,
the first present value of the fallback chain
`"funding_time" / "timestamp" / "time"`, and the rate chain value. -/
structure BybitItem where
  frts : RawVal
  tsAlt : RawVal
  rate : Option String
deriving DecidableEq, Repr

/-- Shape of `j.get("result")` in a decoded Bybit body: `absent` covers a
non-dict body or a missing/other-typed `result`; `asDict l` is a dict
`result` whose `"list"` key holds `l` (`none` when missing/null); `asList`
is a list-typed `result`. -/
inductive BybitResult where
  | absent : BybitResult
  | asDict : Option (List BybitItem) → BybitResult
  | asList : List BybitItem → BybitResult
deriving DecidableEq, Repr

/-- One Bybit page request outcome. -/
inductive BybitResp where
  | fail : BybitResp
  | body : BybitResult → BybitResp
deriving DecidableEq, Repr

/-- Parameters of one Bybit page request. -/
structure BybitRequest where
  symbol : String
  startTime : Int
  endTime : Int
  limit : Nat
deriving DecidableEq, Repr

def bybitLimit : Nat := 200

/-- Lines 61-68: extract `lst` from the decoded body
(`result.get("list") or []` for a dict result). -/
def bybitExtract : BybitResult → List BybitItem
  | BybitResult.absent => []
  | BybitResult.asDict Option.none => []
  | BybitResult.asDict (Option.some l) => l
  | BybitResult.asList l => l

/-- The timestamp the Bybit item loop works on:
`item.get("fundingRateTimestamp") or item.get("funding_time") or ...`. -/
def bybitTs (it : BybitItem) : RawVal :=
  pyOr it.frts it.tsAlt

/-- Bybit timestamp normalization (lines 78-87): `int(ft)`, seconds
multiplied into milliseconds below `10^12`, with the ISO-8601 fallback when
`int` raises. -/
def bybitNormTs (v : RawVal) : Option Int :=
  match pyIntOf v with
  | Option.some n => Option.some (if n < 10 ^ 12 then n * 1000 else n)
  | Option.none => isoMsOf v

/-- Record built in the Bybit item loop. -/
def bybitRecord (symbol : String) (ft : Int) (fr : Option String) :
    FundingRecord :=
  { exchange := "bybit"
    symbol := symbol
    funding_time_ms := ft
    funding_time_iso := iso_from_ms ft
    funding_rate := fr }

/-- Lines 73-95: one Bybit item to an optional record (`None` timestamps
and doubly-unparseable timestamps are skipped with `continue`). -/
def bybitRow (symbol : String) (it : BybitItem) : Option FundingRecord :=
  if bybitTs it = RawVal.missing then Option.none
  else
    match bybitNormTs (bybitTs it) with
    | Option.none => Option.none
    | Option.some ftI => Option.some (bybitRecord symbol ftI it.rate)

/-- Cursor value `int(lst[-1].get("fundingRateTimestamp"))`. -/
def bybitLastT (lst : List BybitItem) : Option Int :=
  match lst.getLast? with
  | Option.none => Option.none
  | Option.some it => pyIntOf it.frts

/-- The Bybit `while True` pagination loop over the response oracle. -/
def bybitLoop (symbol : String) (startTs : Int) :
    List BybitResp → Int → List FundingRecord × List BybitRequest
  | [], curEnd => ([], [⟨symbol, startTs, curEnd, bybitLimit⟩])
  | resp :: rest, curEnd =>
    match resp with
    | BybitResp.fail => ([], [⟨symbol, startTs, curEnd, bybitLimit⟩])
    | BybitResp.body res =>
      if (bybitExtract res).length = 0 then
        ([], [⟨symbol, startTs, curEnd, bybitLimit⟩])
      else
        if (bybitExtract res).length < bybitLimit then
          ((bybitExtract res).filterMap (bybitRow symbol),
            [⟨symbol, startTs, curEnd, bybitLimit⟩])
        else
          match bybitLastT (bybitExtract res) with
          | Option.none =>
            ((bybitExtract res).filterMap (bybitRow symbol),
              [⟨symbol, startTs, curEnd, bybitLimit⟩])
          | Option.some lastTime =>
            ((bybitExtract res).filterMap (bybitRow symbol)
                ++ (bybitLoop symbol startTs rest (lastTime - 1)).1,
              ⟨symbol, startTs, curEnd, bybitLimit⟩
                :: (bybitLoop symbol startTs rest (lastTime - 1)).2)

/-- `fetch_bybit_funding_v5(symbol, start_ts, end_ts)` against a response
oracle. -/
def fetch_bybit_funding_v5 (symbol : String) (startTs endTs : Int)
    (pages : List BybitResp) : List FundingRecord × List BybitRequest :=
  bybitLoop symbol startTs pages endTs

/-- The sequence persisted per (bybit, symbol) group: `main` extends
`all_rows` with `rows[::-1]` (line 148). -/
def bybitPersisted (symbol : String) (startTs endTs : Int)
    (pages : List BybitResp) : List FundingRecord :=
  (fetch_bybit_funding_v5 symbol startTs endTs pages).1.reverse

/-!
## Hyperliquid fetcher (`fetch_hyperliquid_funding.py`, lines 54-154)

POST requests over 30-day windows computed inside the loop
(`cur_end = min(end_ms, cur_start + window_ms - 1)`); per-item timestamps
go through the seconds normalization with no ISO fallback (`continue` on
any `int` failure); after the loop the accumulated rows are deduplicated by
the `(funding_time_ms, funding_rate)` pair through a dict comprehension and
sorted ascending by `funding_time_ms` with Python's stable sort.
-/

/-- One element of a Hyperliquid response list: the first present value of
the chain `"time" / "timestamp" / "t"` and the rate chain value. -/
structure HyperItem where
  ts : RawVal
  rate : Option String
deriving DecidableEq, Repr

/-- One Hyperliquid request outcome: `fail` is any exception out of
`requests.post` / `raise_for_status` / `json()` / the `len(j)` log line
(`len` of an unsized body raises); `notList` is a sized body that is not a
list (the empty-window path also covers `len(j) == 0`). -/
inductive HyperResp where
  | fail : HyperResp
  | notList : HyperResp
  | page : List HyperItem → HyperResp
deriving DecidableEq, Repr

/-- Body of one Hyperliquid POST
(`{"type": "fundingHistory", "coin": coin, "startTime": ..., "endTime": ...}`). -/
structure HyperRequest where
  coin : String
  startTime : Int
  endTime : Int
deriving DecidableEq, Repr

/-- Line 107: `window_ms = 30 * 24 * 3600 * 1000`. -/
def windowMs : Int := 30 * 24 * 3600 * 1000

/-- Lines 54-57, `extract_coin_from_symbol`: the leading run of ASCII
letters (`re.match(r"^([A-Za-z]+)", symbol)`), or the symbol itself when
there is no leading letter. -/
def extract_coin_from_symbol (symbol : String) : String :=
  if symbol.data.takeWhile Char.isAlpha = [] then symbol
  else String.mk (symbol.data.takeWhile Char.isAlpha)

/-- Hyperliquid timestamp normalization (lines 129-134): `int(ft)` with the
seconds-to-milliseconds step and no ISO fallback. -/
def hyperNormTs (v : RawVal) : Option Int :=
  match pyIntOf v with
  | Option.some n => Option.some (if n < 10 ^ 12 then n * 1000 else n)
  | Option.none => Option.none

/-- Record built in the Hyperliquid item loop (the full original symbol is
stored, not the coin). -/
def hyperRecord (symbol : String) (ft : Int) (fr : Option String) :
    FundingRecord :=
  { exchange := "hyperliquid"
    symbol := symbol
    funding_time_ms := ft
    funding_time_iso := iso_from_ms ft
    funding_rate := fr }

/-- Lines 123-142: one Hyperliquid item to an optional record. -/
def hyperRow (symbol : String) (it : HyperItem) : Option FundingRecord :=
  if it.ts = RawVal.missing then Option.none
  else
    match hyperNormTs it.ts with
    | Option.none => Option.none
    | Option.some ftI => Option.some (hyperRecord symbol ftI it.rate)

/-- Cursor value `int(j[-1].get("time") or j[-1].get("timestamp") or
j[-1].get("t"))`. -/
def hyperLastT (items : List HyperItem) : Option Int :=
  match items.getLast? with
  | Option.none => Option.none
  | Option.some it => pyIntOf it.ts

/-- The Hyperliquid `while cur_start <= end_ms` loop over the response
oracle, returning the accumulated (pre-dedup) records and the request
trace. -/
def hyperLoop (symbol coin : String) (endMs : Int) :
    List HyperResp → Int → List FundingRecord × List HyperRequest
  | [], curStart =>
    if endMs < curStart then ([], [])
    else ([], [⟨coin, curStart, min endMs (curStart + windowMs - 1)⟩])
  | resp :: rest, curStart =>
    if endMs < curStart then ([], [])
    else
      match resp with
      | HyperResp.fail =>
        ([], [⟨coin, curStart, min endMs (curStart + windowMs - 1)⟩])
      | HyperResp.notList =>
        ((hyperLoop symbol coin endMs rest
            (min endMs (curStart + windowMs - 1) + 1)).1,
          ⟨coin, curStart, min endMs (curStart + windowMs - 1)⟩
            :: (hyperLoop symbol coin endMs rest
                (min endMs (curStart + windowMs - 1) + 1)).2)
      | HyperResp.page items =>
        if items.length = 0 then
          ((hyperLoop symbol coin endMs rest
              (min endMs (curStart + windowMs - 1) + 1)).1,
            ⟨coin, curStart, min endMs (curStart + windowMs - 1)⟩
              :: (hyperLoop symbol coin endMs rest
                  (min endMs (curStart + windowMs - 1) + 1)).2)
        else
          match hyperLastT items with
          | Option.none =>
            (items.filterMap (hyperRow symbol),
              [⟨coin, curStart, min endMs (curStart + windowMs - 1)⟩])
          | Option.some lastTime =>
            (items.filterMap (hyperRow symbol)
                ++ (hyperLoop symbol coin endMs rest (lastTime + 1)).1,
              ⟨coin, curStart, min endMs (curStart + windowMs - 1)⟩
                :: (hyperLoop symbol coin endMs rest (lastTime + 1)).2)

/-- Dedup key of line 153. -/
def dedupKey (r : FundingRecord) : Int × Option String :=
  (r.funding_time_ms, r.funding_rate)

/-- The dict comprehension `{(r['funding_time_ms'], r['funding_rate']): r
for r in results}.values()`: one record per key, at the position of the
key's first occurrence.  (Within one fetch, records sharing the key are
fully equal, so keeping the first matches the dict's last-write value.) -/
def dedupByPair : List FundingRecord → List (Int × Option String) →
    List FundingRecord
  | [], _ => []
  | r :: rs, seen =>
    if dedupKey r ∈ seen then dedupByPair rs seen
    else r :: dedupByPair rs (dedupKey r :: seen)

/-- Ordering used by `sorted(..., key=lambda x: x["funding_time_ms"])`. -/
def msLE (a b : FundingRecord) : Prop :=
  a.funding_time_ms ≤ b.funding_time_ms

instance : DecidableRel msLE := fun a b =>
  inferInstanceAs (Decidable (a.funding_time_ms ≤ b.funding_time_ms))

instance : IsTotal FundingRecord msLE :=
  ⟨fun a b => Int.le_total a.funding_time_ms b.funding_time_ms⟩

instance : IsTrans FundingRecord msLE :=
  ⟨fun _ _ _ hab hbc => le_trans hab hbc⟩

/-- Line 153: dedup by pair, then Python's stable ascending sort (modelled
by insertion sort, which is stable for this ordering). -/
def hyperFinal (rs : List FundingRecord) : List FundingRecord :=
  List.insertionSort msLE (dedupByPair rs [])

/-- `fetch_hyper_funding_for_symbol(symbol, start_ms, end_ms)` against a
response oracle; the record list is also the sequence persisted per
(hyperliquid, symbol) group. -/
def fetch_hyper_funding_for_symbol (symbol : String) (startMs endMs : Int)
    (pages : List HyperResp) : List FundingRecord × List HyperRequest :=
  let r := hyperLoop symbol (extract_coin_from_symbol symbol) endMs pages
    startMs
  (hyperFinal r.1, r.2)

/-!
## Shape lemmas about produced records and requests
-/

/-- Every record the Binance item loop appends is a `binanceRecord`. -/
theorem binProcess_shape {s : String} {items : List BinItem}
    {r : FundingRecord} (h : r ∈ (binProcess s items).1) :
    ∃ ft fr, r = binanceRecord s ft fr := by
  induction items with
  | nil => simp [binProcess] at h
  | cons it rest ih =>
    cases hft : pyIntOf it.fundingTime with
    | none => simp [binProcess, hft] at h
    | some ft =>
      simp only [binProcess, hft, List.mem_cons] at h
      rcases h with h | h
      · exact ⟨ft, it.fundingRate, h⟩
      · exact ih h

/-- Every record the Binance pagination returns is a `binanceRecord`. -/
theorem binLoop_shape {s : String} {e : Int} {pages : List BinResp}
    {cs : Int} {r : FundingRecord} (h : r ∈ (binLoop s e pages cs).1) :
    ∃ ft fr, r = binanceRecord s ft fr := by
  induction pages generalizing cs with
  | nil => simp [binLoop] at h
  | cons resp rest ih =>
    cases resp with
    | fail => simp [binLoop] at h
    | notList => simp [binLoop] at h
    | page items =>
      simp only [binLoop] at h
      split at h
      · simp at h
      · split at h
        · split at h
          · exact binProcess_shape h
          · split at h
            · exact binProcess_shape h
            · simp only [List.mem_append] at h
              rcases h with h | h
              · exact binProcess_shape h
              · exact ih h
        · exact binProcess_shape h

/-- A successful `bybitRow` yields a `bybitRecord` of the item's rate. -/
theorem bybitRow_shape {s : String} {it : BybitItem} {r : FundingRecord}
    (h : bybitRow s it = Option.some r) : ∃ ft, r = bybitRecord s ft it.rate := by
  unfold bybitRow at h
  split at h
  · cases h
  · split at h
    · cases h
    · exact ⟨_, (Option.some.injEq _ _).mp h |>.symm⟩

/-- Every record the Bybit pagination returns is a `bybitRecord`. -/
theorem bybitLoop_shape {s : String} {st : Int} {pages : List BybitResp}
    {ce : Int} {r : FundingRecord} (h : r ∈ (bybitLoop s st pages ce).1) :
    ∃ ft fr, r = bybitRecord s ft fr := by
  induction pages generalizing ce with
  | nil => simp [bybitLoop] at h
  | cons resp rest ih =>
    cases resp with
    | fail => simp [bybitLoop] at h
    | body res =>
      simp only [bybitLoop] at h
      split at h
      · simp at h
      · split at h
        · rcases List.mem_filterMap.mp h with ⟨it, _, hit⟩
          rcases bybitRow_shape hit with ⟨ft, hr⟩
          exact ⟨ft, it.rate, hr⟩
        · split at h
          · rcases List.mem_filterMap.mp h with ⟨it, _, hit⟩
            rcases bybitRow_shape hit with ⟨ft, hr⟩
            exact ⟨ft, it.rate, hr⟩
          · simp only [List.mem_append] at h
            rcases h with h | h
            · rcases List.mem_filterMap.mp h with ⟨it, _, hit⟩
              rcases bybitRow_shape hit with ⟨ft, hr⟩
              exact ⟨ft, it.rate, hr⟩
            · exact ih h

/-- A successful `hyperRow` yields a `hyperRecord` of the item's rate. -/
theorem hyperRow_shape {s : String} {it : HyperItem} {r : FundingRecord}
    (h : hyperRow s it = Option.some r) : ∃ ft, r = hyperRecord s ft it.rate := by
  unfold hyperRow at h
  split at h
  · cases h
  · split at h
    · cases h
    · exact ⟨_, (Option.some.injEq _ _).mp h |>.symm⟩

/-- Every record the Hyperliquid window loop accumulates is a
`hyperRecord`. -/
theorem hyperLoop_shape {s c : String} {e : Int} {pages : List HyperResp}
    {cs : Int} {r : FundingRecord} (h : r ∈ (hyperLoop s c e pages cs).1) :
    ∃ ft fr, r = hyperRecord s ft fr := by
  induction pages generalizing cs with
  | nil =>
    simp only [hyperLoop] at h
    split at h <;> simp at h
  | cons resp rest ih =>
    cases resp with
    | fail =>
      simp only [hyperLoop] at h
      split at h <;> simp at h
    | notList =>
      simp only [hyperLoop] at h
      split at h
      · simp at h
      · exact ih h
    | page items =>
      simp only [hyperLoop] at h
      split at h
      · simp at h
      · split at h
        · exact ih h
        · split at h
          · rcases List.mem_filterMap.mp h with ⟨it, _, hit⟩
            rcases hyperRow_shape hit with ⟨ft, hr⟩
            exact ⟨ft, it.rate, hr⟩
          · simp only [List.mem_append] at h
            rcases h with h | h
            · rcases List.mem_filterMap.mp h with ⟨it, _, hit⟩
              rcases hyperRow_shape hit with ⟨ft, hr⟩
              exact ⟨ft, it.rate, hr⟩
            · exact ih h

/-- Deduplication only drops records, it never invents one. -/
theorem mem_dedupByPair {l : List FundingRecord}
    {seen : List (Int × Option String)} {r : FundingRecord}
    (h : r ∈ dedupByPair l seen) : r ∈ l := by
  induction l generalizing seen with
  | nil => simp [dedupByPair] at h
  | cons x xs ih =>
    unfold dedupByPair at h
    split at h
    · exact List.mem_cons_of_mem _ (ih h)
    · rcases List.mem_cons.mp h with h | h
      · exact h ▸ List.mem_cons_self _ _
      · exact List.mem_cons_of_mem _ (ih h)

/-- The final dedup-and-sort step only rearranges and drops records. -/
theorem mem_hyperFinal {l : List FundingRecord} {r : FundingRecord}
    (h : r ∈ hyperFinal l) : r ∈ l :=
  mem_dedupByPair ((List.perm_insertionSort msLE _).mem_iff.mp h)

/-- Every Hyperliquid request carries the computed coin and a window end
clipped to `min end_ms (start + 30 days - 1)`. -/
theorem hyperLoop_requests_shape {s c : String} {e : Int}
    {pages : List HyperResp} {cs : Int} {q : HyperRequest}
    (h : q ∈ (hyperLoop s c e pages cs).2) :
    q.coin = c ∧ q.endTime = min e (q.startTime + windowMs - 1) := by
  induction pages generalizing cs with
  | nil =>
    simp only [hyperLoop] at h
    split at h
    · simp at h
    · simp at h
      subst h
      exact ⟨rfl, rfl⟩
  | cons resp rest ih =>
    cases resp with
    | fail =>
      simp only [hyperLoop] at h
      split at h
      · simp at h
      · simp at h
        subst h
        exact ⟨rfl, rfl⟩
    | notList =>
      simp only [hyperLoop] at h
      split at h
      · simp at h
      · rcases List.mem_cons.mp h with h | h
        · subst h
          exact ⟨rfl, rfl⟩
        · exact ih h
    | page items =>
      simp only [hyperLoop] at h
      split at h
      · simp at h
      · split at h
        · rcases List.mem_cons.mp h with h | h
          · subst h
            exact ⟨rfl, rfl⟩
          · exact ih h
        · split at h
          · simp at h
            subst h
            exact ⟨rfl, rfl⟩
          · rcases List.mem_cons.mp h with h | h
            · subst h
              exact ⟨rfl, rfl⟩
            · exact ih h

/-!
## Failure behaviour of the pagination loops
-/

/-- Whatever follows a failing Binance page request is never consulted. -/
theorem binLoop_fail_stops (s : String) (e : Int) (good junk : List BinResp)
    (cs : Int) :
    binLoop s e (good ++ BinResp.fail :: junk) cs
      = binLoop s e (good ++ [BinResp.fail]) cs := by
  induction good generalizing cs with
  | nil => rfl
  | cons resp rest ih =>
    cases resp with
    | fail => rfl
    | notList => rfl
    | page items =>
      simp only [List.cons_append, binLoop]
      by_cases h0 : items.length = 0
      · simp [h0]
      · simp only [h0, if_false]
        by_cases hok : (binProcess s items).2
        · simp only [hok, if_true]
          by_cases hlim : items.length < binanceLimit
          · simp [hlim]
          · simp only [hlim, if_false]
            cases hlast : binLastT items with
            | none => rfl
            | some t => simp [ih]
        · simp [hok]

/-- A failing Binance page request returns exactly the records accumulated
from the pages before it. -/
theorem binLoop_fail_records (s : String) (e : Int) (good : List BinResp)
    (cs : Int) :
    (binLoop s e (good ++ [BinResp.fail]) cs).1 = (binLoop s e good cs).1 := by
  induction good generalizing cs with
  | nil => rfl
  | cons resp rest ih =>
    cases resp with
    | fail => rfl
    | notList => rfl
    | page items =>
      simp only [List.cons_append, binLoop]
      by_cases h0 : items.length = 0
      · simp [h0]
      · simp only [h0, if_false]
        by_cases hok : (binProcess s items).2
        · simp only [hok, if_true]
          by_cases hlim : items.length < binanceLimit
          · simp [hlim]
          · simp only [hlim, if_false]
            cases hlast : binLastT items with
            | none => rfl
            | some t => simp [ih]
        · simp [hok]

/-- Whatever follows a failing Bybit page request is never consulted. -/
theorem bybitLoop_fail_stops (s : String) (st : Int)
    (good junk : List BybitResp) (ce : Int) :
    bybitLoop s st (good ++ BybitResp.fail :: junk) ce
      = bybitLoop s st (good ++ [BybitResp.fail]) ce := by
  induction good generalizing ce with
  | nil => rfl
  | cons resp rest ih =>
    cases resp with
    | fail => rfl
    | body res =>
      simp only [List.cons_append, bybitLoop]
      by_cases h0 : (bybitExtract res).length = 0
      · simp [h0]
      · simp only [h0, if_false]
        by_cases hlim : (bybitExtract res).length < bybitLimit
        · simp [hlim]
        · simp only [hlim, if_false]
          cases hlast : bybitLastT (bybitExtract res) with
          | none => rfl
          | some t => simp [ih]

/-- A failing Bybit page request returns exactly the records accumulated
from the pages before it. -/
theorem bybitLoop_fail_records (s : String) (st : Int)
    (good : List BybitResp) (ce : Int) :
    (bybitLoop s st (good ++ [BybitResp.fail]) ce).1
      = (bybitLoop s st good ce).1 := by
  induction good generalizing ce with
  | nil => rfl
  | cons resp rest ih =>
    cases resp with
    | fail => rfl
    | body res =>
      simp only [List.cons_append, bybitLoop]
      by_cases h0 : (bybitExtract res).length = 0
      · simp [h0]
      · simp only [h0, if_false]
        by_cases hlim : (bybitExtract res).length < bybitLimit
        · simp [hlim]
        · simp only [hlim, if_false]
          cases hlast : bybitLastT (bybitExtract res) with
          | none => rfl
          | some t => simp [ih]

/-- Whatever follows a failing Hyperliquid request is never consulted. -/
theorem hyperLoop_fail_stops (s c : String) (e : Int)
    (good junk : List HyperResp) (cs : Int) :
    hyperLoop s c e (good ++ HyperResp.fail :: junk) cs
      = hyperLoop s c e (good ++ [HyperResp.fail]) cs := by
  induction good generalizing cs with
  | nil => rfl
  | cons resp rest ih =>
    cases resp with
    | fail => rfl
    | notList =>
      simp only [List.cons_append, hyperLoop]
      by_cases hlt : e < cs
      · simp [hlt]
      · simp [hlt, ih]
    | page items =>
      simp only [List.cons_append, hyperLoop]
      by_cases hlt : e < cs
      · simp [hlt]
      · simp only [hlt, if_false]
        by_cases h0 : items.length = 0
        · simp [h0, ih]
        · simp only [h0, if_false]
          cases hlast : hyperLastT items with
          | none => rfl
          | some t => simp [ih]

/-- A failing Hyperliquid request leaves exactly the records accumulated
from the windows before it. -/
theorem hyperLoop_fail_records (s c : String) (e : Int)
    (good : List HyperResp) (cs : Int) :
    (hyperLoop s c e (good ++ [HyperResp.fail]) cs).1
      = (hyperLoop s c e good cs).1 := by
  induction good generalizing cs with
  | nil =>
    simp only [List.nil_append, hyperLoop]
  | cons resp rest ih =>
    cases resp with
    | fail => rfl
    | notList =>
      simp only [List.cons_append, hyperLoop]
      by_cases hlt : e < cs
      · simp [hlt]
      · simp [hlt, ih]
    | page items =>
      simp only [List.cons_append, hyperLoop]
      by_cases hlt : e < cs
      · simp [hlt]
      · simp only [hlt, if_false]
        by_cases h0 : items.length = 0
        · simp [h0, ih]
        · simp only [h0, if_false]
          cases hlast : hyperLastT items with
          | none => rfl
          | some t => simp [ih]

/-- Claim C2: a failing page request (timeout, non-2xx status, JSON decode
error) never propagates out of a fetcher; it ends that symbol's fetch and
the fetcher returns exactly what it would have returned had pagination
ended there — the records accumulated before the failure, with any pages
beyond the failure never consulted. -/
theorem C2_failure_keeps_accumulated (sB sY sH : String)
    (stB eB stY eY stH eH : Int) (goodB junkB : List BinResp)
    (goodY junkY : List BybitResp) (goodH junkH : List HyperResp) :
    ((fetch_binance_funding sB stB eB (goodB ++ BinResp.fail :: junkB)).1
        = (fetch_binance_funding sB stB eB goodB).1) ∧
    ((fetch_bybit_funding_v5 sY stY eY (goodY ++ BybitResp.fail :: junkY)).1
        = (fetch_bybit_funding_v5 sY stY eY goodY).1) ∧
    ((fetch_hyper_funding_for_symbol sH stH eH
          (goodH ++ HyperResp.fail :: junkH)).1
        = (fetch_hyper_funding_for_symbol sH stH eH goodH).1) := by
  refine ⟨?_, ?_, ?_⟩
  · exact (congrArg Prod.fst
        (binLoop_fail_stops sB eB goodB junkB stB)).trans
      (binLoop_fail_records sB eB goodB stB)
  · exact (congrArg Prod.fst
        (bybitLoop_fail_stops sY stY goodY junkY eY)).trans
      (bybitLoop_fail_records sY stY goodY eY)
  · exact (congrArg (fun p => hyperFinal p.1)
        (hyperLoop_fail_stops sH (extract_coin_from_symbol sH) eH goodH junkH
          stH)).trans
      (congrArg hyperFinal
        (hyperLoop_fail_records sH (extract_coin_from_symbol sH) eH goodH stH))

/-!
## Claim C3: timestamp normalization
-/

/-- The normalization exactly as claim C3 states it for every fetcher:
integer parse with the seconds-to-milliseconds step, then an ISO-8601
fallback whenever integer parsing fails.  Comparison definition following
the claim's words; the Bybit code matches it, the Hyperliquid per-item loop
does not (no ISO fallback there). -/
def claimC3NormTs (v : RawVal) : Option Int :=
  match pyIntOf v with
  | Option.some n => Option.some (if n < 10 ^ 12 then n * 1000 else n)
  | Option.none => isoMsOf v

/-- Claim C3, counterexample: an entry whose timestamp fails integer
parsing but is valid ISO-8601 would be kept according to the claim
(`claimC3NormTs` yields the decoded milliseconds), yet the Hyperliquid
fetcher discards it: `hyperRow` drops the entry, and a whole fetch whose
single page carries only that entry returns no records. -/
theorem C3_counterexample :
    claimC3NormTs (RawVal.asIso 1700000000000) = Option.some 1700000000000 ∧
    hyperRow "ETHUSDC" ⟨RawVal.asIso 1700000000000, Option.some "0.0001"⟩
      = Option.none ∧
    (fetch_hyper_funding_for_symbol "ETHUSDC" 0 0
        [HyperResp.page [⟨RawVal.asIso 1700000000000, Option.some "0.0001"⟩]]).1
      = [] := by
  refine ⟨rfl, rfl, ?_⟩
  decide

/-- Claim C3 as amended: in the Bybit and Hyperliquid item loops a raw
timestamp that parses as integer `t` normalizes to `t * 1000` when
`t < 10^12` and stays `t` otherwise (`1700000000` becomes `1700000000000`,
`1700000000000` is unchanged); when integer parsing fails, the Bybit loop
falls back to ISO-8601 parsing, while the Hyperliquid loop discards the
entry without attempting ISO parsing; when every applicable parse fails the
entry is discarded. -/
theorem C3_normalization (s : String) (fr : Option String) (alt : RawVal)
    (t ms : Int) :
    (bybitRow s ⟨RawVal.asInt t, alt, fr⟩
        = Option.some (bybitRecord s (if t < 10 ^ 12 then t * 1000 else t) fr)) ∧
    (hyperRow s ⟨RawVal.asInt t, fr⟩
        = Option.some (hyperRecord s (if t < 10 ^ 12 then t * 1000 else t) fr)) ∧
    (bybitRow s ⟨RawVal.asIso ms, alt, fr⟩
        = Option.some (bybitRecord s ms fr)) ∧
    (hyperRow s ⟨RawVal.asIso ms, fr⟩ = Option.none) ∧
    (bybitRow s ⟨RawVal.bad, alt, fr⟩ = Option.none) ∧
    (hyperRow s ⟨RawVal.bad, fr⟩ = Option.none) ∧
    (bybitNormTs (RawVal.asInt 1700000000) = Option.some 1700000000000) ∧
    (bybitNormTs (RawVal.asInt 1700000000000)
        = Option.some 1700000000000) := by
  refine ⟨?_, ?_, rfl, rfl, rfl, rfl, by decide, by decide⟩
  · simp [bybitRow, bybitTs, pyOr, bybitNormTs, pyIntOf]
  · simp [hyperRow, hyperNormTs, pyIntOf]

/-!
## Claim C10: coin extraction and symbol propagation
-/

/-- Claim C10, counterexample to the example in the claim: `ETHUSDC`
consists entirely of ASCII letters, so the leading-letter-run regex
`^([A-Za-z]+)` matches the whole symbol and the request body carries coin
`ETHUSDC`, not `ETH` (the code's own docstring example is equally wrong
about this). -/
theorem C10_counterexample :
    extract_coin_from_symbol "ETHUSDC" = "ETHUSDC" ∧
    "ETHUSDC" ≠ "ETH" ∧
    (fetch_hyper_funding_for_symbol "ETHUSDC" 0 0
        [HyperResp.page [⟨RawVal.asInt 1700000000000, Option.some "1"⟩]]).2
      = [⟨"ETHUSDC", 0, 0⟩] := by
  refine ⟨by decide, by decide, by decide⟩

/-- Claim C10 as amended: every Hyperliquid request body carries the coin
computed by `extract_coin_from_symbol` — the leading run of ASCII letters
of the symbol, the whole symbol when it is all letters (so `ETHUSDC`
requests coin `ETHUSDC` while `ETH1USDC` requests `ETH`), and the symbol
unchanged when it has no leading letter — while every record the fetcher
emits carries the full original symbol string unchanged. -/
theorem C10_coin_request_symbol_record (symbol : String) (startMs endMs : Int)
    (pages : List HyperResp) :
    (∀ q ∈ (fetch_hyper_funding_for_symbol symbol startMs endMs pages).2,
        q.coin = extract_coin_from_symbol symbol) ∧
    (∀ r ∈ (fetch_hyper_funding_for_symbol symbol startMs endMs pages).1,
        r.symbol = symbol) ∧
    extract_coin_from_symbol "ETH1USDC" = "ETH" ∧
    extract_coin_from_symbol "1000PEPE" = "1000PEPE" := by
  refine ⟨?_, ?_, by decide, by decide⟩
  · intro q hq
    exact (hyperLoop_requests_shape hq).1
  · intro r hr
    rcases hyperLoop_shape (mem_hyperFinal hr) with ⟨ft, fr, hrec⟩
    rw [hrec]
    rfl

/-- Witness for C10: a concrete run on symbol `ETH1USDC` issues the request
with coin `ETH`. -/
theorem C10_witness :
    ((⟨"ETH", 0, 0⟩ : HyperRequest) ∈
        (fetch_hyper_funding_for_symbol "ETH1USDC" 0 0
          [HyperResp.page [⟨RawVal.asInt 1700000000000,
            Option.some "1"⟩]]).2) ∧
    (⟨"ETH", 0, 0⟩ : HyperRequest).coin
      = extract_coin_from_symbol "ETH1USDC" :=
  ⟨by decide,
    (C10_coin_request_symbol_record "ETH1USDC" 0 0
      [HyperResp.page [⟨RawVal.asInt 1700000000000, Option.some "1"⟩]]).1
      ⟨"ETH", 0, 0⟩ (by decide)⟩

/-!
## Claims C8 and C4: concrete pagination scenarios
-/

/-- Executable check that a record list is strictly ascending in
`funding_time_ms`. -/
def ascMs : List FundingRecord → Bool
  | [] => true
  | [_] => true
  | a :: b :: rest =>
    decide (a.funding_time_ms < b.funding_time_ms) && ascMs (b :: rest)

/-- The Boolean ascending check agrees with `List.Chain'` of the strict
`funding_time_ms` order. -/
theorem ascMs_iff_chain {l : List FundingRecord} :
    ascMs l = true
      ↔ List.Chain' (fun a b => a.funding_time_ms < b.funding_time_ms) l := by
  induction l with
  | nil => simp [ascMs]
  | cons a rest ih =>
    cases rest with
    | nil => simp [ascMs]
    | cons b rest2 =>
      rw [List.chain'_cons, ← ih, ascMs]
      simp

/-- Page 1 of the C8 scenario: exactly 1000 entries, 8-hourly millisecond
timestamps from 2024-12-16T00:00:00Z on. -/
def binPage1 : List BinItem :=
  (List.range 1000).map
    (fun i =>
      ⟨RawVal.asInt (1734307200000 + 28800000 * (i : Int)),
        Option.some "0.0001"⟩)

/-- Page 2 of the C8 scenario: the remaining 40 entries. -/
def binPage2 : List BinItem :=
  (List.range 40).map
    (fun i =>
      ⟨RawVal.asInt (1763107200000 + 28800000 * (i : Int)),
        Option.some "0.0001"⟩)

set_option maxRecDepth 100000 in
/-- Claim C8: with page limit 1000, a first page of exactly 1000 records
and a second of 40 make the Binance fetcher issue exactly 2 page requests
— the second with `startTime` equal to the last entry's timestamp plus one
millisecond (1763078400000 + 1) — and return 1040 records in strictly
ascending `funding_time_ms` order, stopping at the short page. -/
theorem C8_binance_two_pages :
    (fetch_binance_funding "BTCUSDT" 1734307200000 1767225600000
        [BinResp.page binPage1, BinResp.page binPage2]).2
      = [⟨"BTCUSDT", 1734307200000, 1767225600000, 1000⟩,
          ⟨"BTCUSDT", 1763078400001, 1767225600000, 1000⟩] ∧
    (fetch_binance_funding "BTCUSDT" 1734307200000 1767225600000
        [BinResp.page binPage1, BinResp.page binPage2]).1.length = 1040 ∧
    ascMs (fetch_binance_funding "BTCUSDT" 1734307200000 1767225600000
        [BinResp.page binPage1, BinResp.page binPage2]).1 = true := by
  refine ⟨by decide, by decide, by decide⟩

/-- One Bybit page of `n` entries in strictly descending 8-hourly steps
starting at `top` (timestamps under the `"fundingRateTimestamp"` key). -/
def bybitPageDesc (top : Int) (n : Nat) : List BybitItem :=
  (List.range n).map
    (fun i =>
      ⟨RawVal.asInt (top - 28800000 * (i : Int)), RawVal.missing,
        Option.some "0.0001"⟩)

/-- The C4 scenario oracle: three full pages of 200 descending entries and
a final page of 5, globally descending. -/
def bybitScenarioPages : List BybitResp :=
  [BybitResp.body (BybitResult.asDict (Option.some
      (bybitPageDesc 1767225600000 200))),
    BybitResp.body (BybitResult.asDict (Option.some
      (bybitPageDesc 1761465600000 200))),
    BybitResp.body (BybitResult.asDict (Option.some
      (bybitPageDesc 1755705600000 200))),
    BybitResp.body (BybitResult.asDict (Option.some
      (bybitPageDesc 1749945600000 5)))]

set_option maxRecDepth 100000 in
/-- Claim C4: when the Bybit endpoint returns records in descending time
order across 3 full pages of 200 entries and a final page of 5, the
persisted sequence for that symbol (the fetched rows reversed by `main`
before saving) is 605 records in strictly ascending `funding_time_ms`
order, after exactly 4 page requests. -/
theorem C4_bybit_reversal_scenario :
    (bybitPersisted "BTCUSDT" 1734307200000 1767225600000
        bybitScenarioPages).length = 605 ∧
    ascMs (bybitPersisted "BTCUSDT" 1734307200000 1767225600000
        bybitScenarioPages) = true ∧
    (fetch_bybit_funding_v5 "BTCUSDT" 1734307200000 1767225600000
        bybitScenarioPages).2.length = 4 := by
  refine ⟨by decide, by decide, by decide⟩

/-!
## Claim C5: empty / structurally absent pages
-/

/-- Extending the oracle behind two suffixes that the Binance loop treats
identically from any cursor preserves the whole run. -/
theorem binLoop_append_congr (s : String) (e : Int) (t1 t2 : List BinResp)
    (h : ∀ cs, binLoop s e t1 cs = binLoop s e t2 cs) (good : List BinResp) :
    ∀ cs, binLoop s e (good ++ t1) cs = binLoop s e (good ++ t2) cs := by
  induction good with
  | nil => exact h
  | cons resp rest ih =>
    intro cs
    cases resp with
    | fail => rfl
    | notList => rfl
    | page items =>
      simp only [List.cons_append, binLoop]
      by_cases h0 : items.length = 0
      · simp [h0]
      · simp only [h0, if_false]
        by_cases hok : (binProcess s items).2
        · simp only [hok, if_true]
          by_cases hlim : items.length < binanceLimit
          · simp [hlim]
          · simp only [hlim, if_false]
            cases hlast : binLastT items with
            | none => rfl
            | some t => simp [ih]
        · simp [hok]

/-- Records-only variant of `binLoop_append_congr`. -/
theorem binLoop_append_congr_records (s : String) (e : Int)
    (t1 t2 : List BinResp)
    (h : ∀ cs, (binLoop s e t1 cs).1 = (binLoop s e t2 cs).1)
    (good : List BinResp) :
    ∀ cs, (binLoop s e (good ++ t1) cs).1 = (binLoop s e (good ++ t2) cs).1 := by
  induction good with
  | nil => exact h
  | cons resp rest ih =>
    intro cs
    cases resp with
    | fail => rfl
    | notList => rfl
    | page items =>
      simp only [List.cons_append, binLoop]
      by_cases h0 : items.length = 0
      · simp [h0]
      · simp only [h0, if_false]
        by_cases hok : (binProcess s items).2
        · simp only [hok, if_true]
          by_cases hlim : items.length < binanceLimit
          · simp [hlim]
          · simp only [hlim, if_false]
            cases hlast : binLastT items with
            | none => rfl
            | some t => simp [ih]
        · simp [hok]

/-- Extending the oracle behind two suffixes that the Bybit loop treats
identically from any cursor preserves the whole run. -/
theorem bybitLoop_append_congr (s : String) (st : Int)
    (t1 t2 : List BybitResp)
    (h : ∀ ce, bybitLoop s st t1 ce = bybitLoop s st t2 ce)
    (good : List BybitResp) :
    ∀ ce, bybitLoop s st (good ++ t1) ce = bybitLoop s st (good ++ t2) ce := by
  induction good with
  | nil => exact h
  | cons resp rest ih =>
    intro ce
    cases resp with
    | fail => rfl
    | body res =>
      simp only [List.cons_append, bybitLoop]
      by_cases h0 : (bybitExtract res).length = 0
      · simp [h0]
      · simp only [h0, if_false]
        by_cases hlim : (bybitExtract res).length < bybitLimit
        · simp [hlim]
        · simp only [hlim, if_false]
          cases hlast : bybitLastT (bybitExtract res) with
          | none => rfl
          | some t => simp [ih]

/-- Records-only variant of `bybitLoop_append_congr`. -/
theorem bybitLoop_append_congr_records (s : String) (st : Int)
    (t1 t2 : List BybitResp)
    (h : ∀ ce, (bybitLoop s st t1 ce).1 = (bybitLoop s st t2 ce).1)
    (good : List BybitResp) :
    ∀ ce, (bybitLoop s st (good ++ t1) ce).1
      = (bybitLoop s st (good ++ t2) ce).1 := by
  induction good with
  | nil => exact h
  | cons resp rest ih =>
    intro ce
    cases resp with
    | fail => rfl
    | body res =>
      simp only [List.cons_append, bybitLoop]
      by_cases h0 : (bybitExtract res).length = 0
      · simp [h0]
      · simp only [h0, if_false]
        by_cases hlim : (bybitExtract res).length < bybitLimit
        · simp [hlim]
        · simp only [hlim, if_false]
          cases hlast : bybitLastT (bybitExtract res) with
          | none => rfl
          | some t => simp [ih]

/-- Claim C5, counterexample: for the Hyperliquid fetcher an empty page
does not terminate the symbol's pagination — after an empty first window
the loop issues a second request and returns its record, where the claim
predicts pagination ends at the empty page with no records. -/
theorem C5_counterexample :
    ((fetch_hyper_funding_for_symbol "ETHUSDC" 1734307200000 1739491199999
        [HyperResp.page [],
          HyperResp.page [⟨RawVal.asInt 1739491199999,
            Option.some "1"⟩]]).1.map (fun r => r.funding_time_ms)
      = [1739491199999]) ∧
    (fetch_hyper_funding_for_symbol "ETHUSDC" 1734307200000 1739491199999
        [HyperResp.page [],
          HyperResp.page [⟨RawVal.asInt 1739491199999,
            Option.some "1"⟩]]).2.length = 2 := by
  refine ⟨by decide, by decide⟩

/-- Claim C5 as amended: for the Binance and Bybit fetchers a page response
that is an empty list, or has no structurally present list of entries,
terminates the symbol's pagination and yields exactly the previously
accumulated records without error; for the Hyperliquid fetcher such a
window response does not terminate the symbol's pagination — it contributes
no records and advances the loop to the next 30-day window. -/
theorem C5_empty_page_termination (s : String) (e st : Int) (cs : Int)
    (goodB junkB : List BinResp) (goodY junkY : List BybitResp)
    (res : BybitResult) (hres : bybitExtract res = [])
    (c : String) (restH : List HyperResp) (hcs : ¬ e < cs) :
    (binLoop s e (goodB ++ BinResp.page [] :: junkB) cs
        = binLoop s e (goodB ++ [BinResp.page []]) cs) ∧
    ((binLoop s e (goodB ++ [BinResp.page []]) cs).1
        = (binLoop s e goodB cs).1) ∧
    (binLoop s e (goodB ++ BinResp.notList :: junkB) cs
        = binLoop s e (goodB ++ [BinResp.notList]) cs) ∧
    ((binLoop s e (goodB ++ [BinResp.notList]) cs).1
        = (binLoop s e goodB cs).1) ∧
    (bybitLoop s st (goodY ++ BybitResp.body res :: junkY) cs
        = bybitLoop s st (goodY ++ [BybitResp.body res]) cs) ∧
    ((bybitLoop s st (goodY ++ [BybitResp.body res]) cs).1
        = (bybitLoop s st goodY cs).1) ∧
    (hyperLoop s c e (HyperResp.page [] :: restH) cs
        = ((hyperLoop s c e restH (min e (cs + windowMs - 1) + 1)).1,
            ⟨c, cs, min e (cs + windowMs - 1)⟩
              :: (hyperLoop s c e restH
                  (min e (cs + windowMs - 1) + 1)).2)) := by
  refine ⟨?_, ?_, ?_, ?_, ?_, ?_, ?_⟩
  · exact binLoop_append_congr s e (BinResp.page [] :: junkB)
      [BinResp.page []] (fun _ => rfl) goodB cs
  · have := binLoop_append_congr_records s e [BinResp.page []] []
      (fun _ => rfl) goodB cs
    rwa [List.append_nil] at this
  · exact binLoop_append_congr s e (BinResp.notList :: junkB)
      [BinResp.notList] (fun _ => rfl) goodB cs
  · have := binLoop_append_congr_records s e [BinResp.notList] []
      (fun _ => rfl) goodB cs
    rwa [List.append_nil] at this
  · exact bybitLoop_append_congr s st (BybitResp.body res :: junkY)
      [BybitResp.body res] (fun ce => by simp [bybitLoop, hres]) goodY cs
  · have := bybitLoop_append_congr_records s st [BybitResp.body res] []
      (fun ce => by simp [bybitLoop, hres]) goodY cs
    rwa [List.append_nil] at this
  · simp [hyperLoop, hcs]

/-- Witness for C5 at a concrete state: one good Binance page, then an
empty page; a Bybit dict result with a null list; a Hyperliquid window
start inside the range. -/
theorem C5_witness :
    bybitExtract (BybitResult.asDict Option.none) = [] ∧
    ¬ (2 : Int) < 0 ∧
    ((binLoop "BTCUSDT" 2 ([BinResp.page [⟨RawVal.asInt 1,
          Option.some "1"⟩]] ++ [BinResp.page []]) 0).1
        = (binLoop "BTCUSDT" 2 [BinResp.page [⟨RawVal.asInt 1,
            Option.some "1"⟩]] 0).1) := by
  refine ⟨rfl, by decide, ?_⟩
  exact (C5_empty_page_termination "BTCUSDT" 2 0 0
      [BinResp.page [⟨RawVal.asInt 1, Option.some "1"⟩]] []
      [] [] (BybitResult.asDict Option.none) rfl "BTC" []
      (by decide)).2.1

/-!
## Claim C6: entries with missing / unparseable timestamps
-/

/-- A Bybit item on which both parses fail (which includes a missing
timestamp) is skipped by the item loop. -/
theorem bybitRow_none {s : String} {it : BybitItem}
    (h1 : pyIntOf (bybitTs it) = Option.none)
    (h2 : isoMsOf (bybitTs it) = Option.none) :
    bybitRow s it = Option.none := by
  unfold bybitRow bybitNormTs
  rw [h1, h2]
  split <;> rfl

/-- A Hyperliquid item on which integer parsing fails is skipped by the
item loop. -/
theorem hyperRow_none {s : String} {it : HyperItem}
    (h1 : pyIntOf it.ts = Option.none) :
    hyperRow s it = Option.none := by
  unfold hyperRow hyperNormTs
  rw [h1]
  split <;> rfl

/-- In the Binance item loop an unparseable timestamp raises out of the
`for` body: the records of the leading parseable prefix are kept and the
`ok` flag drops to `false`. -/
theorem binProcess_break {s : String} {l1 l2 : List BinItem} {bad : BinItem}
    (hgood : (binProcess s l1).2 = true)
    (hbad : pyIntOf bad.fundingTime = Option.none) :
    binProcess s (l1 ++ bad :: l2) = ((binProcess s l1).1, false) := by
  induction l1 with
  | nil => simp [binProcess, hbad]
  | cons it rest ih =>
    cases hft : pyIntOf it.fundingTime with
    | none => simp [binProcess, hft] at hgood
    | some ft =>
      have hg : (binProcess s rest).2 = true := by
        simpa [binProcess, hft] using hgood
      simp [binProcess, hft, ih hg]

/-- Claim C6, counterexample: a full Binance page of 1000 entries whose
501st timestamp is missing makes the fetcher stop with the 500 records
before it — the rest of the page is dropped and no second page request is
issued, where the claim predicts the entry alone is dropped and processing
continues. -/
theorem C6_counterexample :
    ((fetch_binance_funding "BTCUSDT" 0 2000000000000
        [BinResp.page
            ((List.range 500).map
              (fun i =>
                ⟨RawVal.asInt (1734307200000 + 28800000 * (i : Int)),
                  Option.some "0.0001"⟩)
              ++ ⟨RawVal.missing, Option.some "0.0001"⟩
                :: (List.range 499).map
                  (fun i =>
                    ⟨RawVal.asInt (1748707200000 + 28800000 * (i : Int)),
                      Option.some "0.0001"⟩)),
          BinResp.page [⟨RawVal.asInt 1763107200000,
            Option.some "0.0001"⟩]]).1.length = 500) ∧
    (fetch_binance_funding "BTCUSDT" 0 2000000000000
        [BinResp.page
            ((List.range 500).map
              (fun i =>
                ⟨RawVal.asInt (1734307200000 + 28800000 * (i : Int)),
                  Option.some "0.0001"⟩)
              ++ ⟨RawVal.missing, Option.some "0.0001"⟩
                :: (List.range 499).map
                  (fun i =>
                    ⟨RawVal.asInt (1748707200000 + 28800000 * (i : Int)),
                      Option.some "0.0001"⟩)),
          BinResp.page [⟨RawVal.asInt 1763107200000,
            Option.some "0.0001"⟩]]).2.length = 1 := by
  refine ⟨by set_option maxRecDepth 100000 in decide,
    by set_option maxRecDepth 100000 in decide⟩

/-- Claim C6 as amended: in the Bybit and Hyperliquid fetchers an entry
whose timestamp is missing or unparseable is silently dropped and the
remaining entries of the page contribute their records unaffected; in the
Binance fetcher such an entry raises into the page-level handler, which
ends the symbol's fetch keeping exactly the records of the entries before
it — the rest of the page and all later pages are dropped. -/
theorem C6_entry_drop (s : String) (e cs : Int)
    (y1 y2 : List BybitItem) (badY : BybitItem)
    (hY1 : pyIntOf (bybitTs badY) = Option.none)
    (hY2 : isoMsOf (bybitTs badY) = Option.none)
    (h1 h2 : List HyperItem) (badH : HyperItem)
    (hH1 : pyIntOf badH.ts = Option.none)
    (b1 b2 : List BinItem) (badB : BinItem)
    (hgood : (binProcess s b1).2 = true)
    (hB : pyIntOf badB.fundingTime = Option.none)
    (junk : List BinResp) :
    ((y1 ++ badY :: y2).filterMap (bybitRow s)
        = y1.filterMap (bybitRow s) ++ y2.filterMap (bybitRow s)) ∧
    ((h1 ++ badH :: h2).filterMap (hyperRow s)
        = h1.filterMap (hyperRow s) ++ h2.filterMap (hyperRow s)) ∧
    (binLoop s e (BinResp.page (b1 ++ badB :: b2) :: junk) cs
        = ((binProcess s b1).1, [⟨s, cs, e, binanceLimit⟩])) := by
  refine ⟨?_, ?_, ?_⟩
  · simp [List.filterMap_append, List.filterMap_cons, bybitRow_none hY1 hY2]
  · simp [List.filterMap_append, List.filterMap_cons, hyperRow_none hH1]
  · have hlen : (b1 ++ badB :: b2).length = 0 ↔ False := by simp
    simp [binLoop, hlen, binProcess_break hgood hB]

/-- Witness for C6: concrete unparseable items for the three fetchers. -/
theorem C6_witness :
    pyIntOf (bybitTs ⟨RawVal.bad, RawVal.missing, Option.some "x"⟩)
        = Option.none ∧
    isoMsOf (bybitTs ⟨RawVal.bad, RawVal.missing, Option.some "x"⟩)
        = Option.none ∧
    pyIntOf (HyperItem.ts ⟨RawVal.missing, Option.some "x"⟩) = Option.none ∧
    (binProcess "BTCUSDT" [⟨RawVal.asInt 7, Option.some "a"⟩]).2 = true ∧
    pyIntOf (BinItem.fundingTime ⟨RawVal.bad, Option.some "b"⟩)
        = Option.none ∧
    binLoop "BTCUSDT" 9 [BinResp.page ([⟨RawVal.asInt 7, Option.some "a"⟩]
          ++ ⟨RawVal.bad, Option.some "b"⟩
            :: [⟨RawVal.asInt 8, Option.some "c"⟩])] 0
      = ((binProcess "BTCUSDT" [⟨RawVal.asInt 7, Option.some "a"⟩]).1,
          [⟨"BTCUSDT", 0, 9, binanceLimit⟩]) :=
  ⟨rfl, rfl, rfl, rfl, rfl,
    (C6_entry_drop "BTCUSDT" 9 0 [] [] ⟨RawVal.bad, RawVal.missing,
        Option.some "x"⟩ rfl rfl [] [] ⟨RawVal.missing, Option.some "x"⟩ rfl
        [⟨RawVal.asInt 7, Option.some "a"⟩]
        [⟨RawVal.asInt 8, Option.some "c"⟩]
        ⟨RawVal.bad, Option.some "b"⟩ rfl rfl []).2.2⟩

/-!
## Claim C7: Hyperliquid windowing, dedup and sort
-/

/-- The k-th window of the fixed 30-day segmentation of
`[startMs, endMs]` that claim C7 describes (windows computed before the
request loop).  Comparison definition following the claim's words; the
code instead recomputes `cur_end = min(end_ms, cur_start + window_ms - 1)`
inside the loop from a cursor that follows the returned timestamps. -/
def claimC7FixedWindow (startMs endMs : Int) (k : Nat) : Int × Int :=
  (startMs + k * windowMs, min endMs (startMs + (k + 1) * windowMs - 1))

/-- Claim C7, counterexample: after a first-window page whose last raw
timestamp is `10`, the second issued request covers `[11, 11 + 30d - 1]`,
not the second fixed window `[30d, 60d - 1]` of the segmentation the claim
describes — the windows are computed inside the loop from the response
cursor, not fixed up front. -/
theorem C7_counterexample :
    ((fetch_hyper_funding_for_symbol "ETH" 0 5184000000
        [HyperResp.page [⟨RawVal.asInt 10, Option.some "1"⟩],
          HyperResp.fail]).2.map (fun q => (q.startTime, q.endTime))
      = [(0, 2591999999), (11, 2592000010)]) ∧
    claimC7FixedWindow 0 5184000000 1 = (2592000000, 5183999999) ∧
    ((11, 2592000010) : Int × Int) ≠ (2592000000, 5183999999) := by
  refine ⟨by decide, by decide, by decide⟩

/-- `dedupByPair` yields records whose keys avoid `seen` and are pairwise
distinct. -/
theorem dedupByPair_spec (l : List FundingRecord) :
    ∀ seen, (∀ r ∈ dedupByPair l seen, dedupKey r ∉ seen) ∧
      List.Pairwise (fun a b => dedupKey a ≠ dedupKey b)
        (dedupByPair l seen) := by
  induction l with
  | nil =>
    intro seen
    exact ⟨by simp [dedupByPair], by simp [dedupByPair]⟩
  | cons x xs ih =>
    intro seen
    by_cases hx : dedupKey x ∈ seen
    · simpa [dedupByPair, hx] using ih seen
    · unfold dedupByPair
      simp only [hx, if_false]
      constructor
      · intro r hr
        rcases List.mem_cons.mp hr with rfl | hr
        · exact hx
        · intro hmem
          exact (ih (dedupKey x :: seen)).1 r hr
            (List.mem_cons_of_mem _ hmem)
      · refine List.pairwise_cons.mpr ⟨?_, (ih (dedupKey x :: seen)).2⟩
        intro b hb heq
        apply (ih (dedupKey x :: seen)).1 b hb
        rw [← heq]
        exact List.mem_cons_self _ _

/-- The final Hyperliquid output never contains two records with the same
`(funding_time_ms, funding_rate)` pair. -/
theorem hyperFinal_pairwise_ne (l : List FundingRecord) :
    List.Pairwise (fun a b => dedupKey a ≠ dedupKey b) (hyperFinal l) := by
  exact (List.Perm.pairwise_iff (fun {a b} h heq => h heq.symm)
    (List.perm_insertionSort msLE (dedupByPair l []))).mpr
    (dedupByPair_spec l []).2

/-- The first request of a Hyperliquid run starts at the current cursor. -/
theorem hyperLoop_head_request {s c : String} {e : Int}
    {pages : List HyperResp} {cs : Int} {q : HyperRequest}
    (h : (hyperLoop s c e pages cs).2.head? = Option.some q) :
    q.startTime = cs := by
  cases pages with
  | nil =>
    simp only [hyperLoop] at h
    split at h
    · simp at h
    · simp at h
      rw [← h]
  | cons resp rest =>
    cases resp with
    | fail =>
      simp only [hyperLoop] at h
      split at h
      · simp at h
      · simp at h
        rw [← h]
    | notList =>
      simp only [hyperLoop] at h
      split at h
      · simp at h
      · simp at h
        rw [← h]
    | page items =>
      simp only [hyperLoop] at h
      split at h
      · simp at h
      · split at h
        · simp at h
          rw [← h]
        · split at h
          · simp at h
            rw [← h]
          · simp at h
            rw [← h]

/-- Claim C7 as amended: the Hyperliquid fetcher computes its 30-day
windows inside the request loop — every issued request covers
`[startTime, min(end_ms, startTime + 30d - 1)]` with the first request
starting at `start_ms`, the start of each later request following the last
returned timestamp (or the previous window end) rather than a fixed
pre-computed segmentation — and the combined records of all windows are
deduplicated by the `(funding_time_ms, funding_rate)` pair and sorted
ascending by `funding_time_ms` before being returned. -/
theorem C7_windows_dedup_sort (symbol : String) (startMs endMs : Int)
    (pages : List HyperResp) :
    (∀ q ∈ (fetch_hyper_funding_for_symbol symbol startMs endMs pages).2,
        q.endTime = min endMs (q.startTime + windowMs - 1)) ∧
    (∀ q, (fetch_hyper_funding_for_symbol symbol startMs endMs pages).2.head?
          = Option.some q → q.startTime = startMs) ∧
    List.Sorted msLE
      (fetch_hyper_funding_for_symbol symbol startMs endMs pages).1 ∧
    List.Pairwise (fun a b => dedupKey a ≠ dedupKey b)
      (fetch_hyper_funding_for_symbol symbol startMs endMs pages).1 := by
  refine ⟨?_, ?_, ?_, ?_⟩
  · intro q hq
    exact (hyperLoop_requests_shape hq).2
  · intro q hq
    exact hyperLoop_head_request hq
  · exact List.sorted_insertionSort msLE _
  · exact hyperFinal_pairwise_ne _

/-- Witness for C7 at the two-window run of the counterexample oracle. -/
theorem C7_witness :
    ((⟨"ETH", 0, 2591999999⟩ : HyperRequest) ∈
        (fetch_hyper_funding_for_symbol "ETH" 0 5184000000
          [HyperResp.page [⟨RawVal.asInt 10, Option.some "1"⟩],
            HyperResp.fail]).2) ∧
    (⟨"ETH", 0, 2591999999⟩ : HyperRequest).endTime
      = min 5184000000 ((⟨"ETH", 0, 2591999999⟩ : HyperRequest).startTime
          + windowMs - 1) :=
  ⟨by decide,
    (C7_windows_dedup_sort "ETH" 0 5184000000
        [HyperResp.page [⟨RawVal.asInt 10, Option.some "1"⟩],
          HyperResp.fail]).1 ⟨"ETH", 0, 2591999999⟩ (by decide)⟩

/-!
## Claim C1: ordering and uniqueness of the persisted sequences

Validity of an oracle: every executed page is a list whose entries carry
integer timestamps that lie in the window requested at that moment and are
strictly monotone in the direction the exchange paginates (ascending for
Binance/Hyperliquid, descending for Bybit), already in milliseconds
(`10^12 ≤ t`) for the two normalizing fetchers.
-/

/-- A strictly ascending Binance page whose raw timestamps lie in
`[lo, hi]`. -/
def binItemsOkFrom (lo hi : Int) : List BinItem → Bool
  | [] => true
  | it :: rest =>
    match it.fundingTime with
    | RawVal.asInt t =>
      decide (lo ≤ t) && decide (t ≤ hi) && binItemsOkFrom (t + 1) hi rest
    | _ => false

/-- Validity of a Binance oracle along the executed path, threading the
cursor exactly as the loop does. -/
def binPagesOk (endMs : Int) : List BinResp → Int → Bool
  | [], _ => true
  | BinResp.fail :: _, _ => false
  | BinResp.notList :: _, _ => false
  | BinResp.page items :: rest, curStart =>
    if items.length = 0 then true
    else
      binItemsOkFrom curStart endMs items &&
      (if items.length < binanceLimit then true
        else
          match binLastT items with
          | Option.none => false
          | Option.some t => binPagesOk endMs rest (t + 1))

/-- On a valid Binance page the item loop raises nothing, its records
carry the raw timestamps (bounded by the window, strictly ascending) and
the cursor value bounds them from above. -/
theorem binItemsOk_spec {s : String} {items : List BinItem} : ∀ {lo hi : Int},
    binItemsOkFrom lo hi items = true →
    (binProcess s items).2 = true ∧
    (∀ r ∈ (binProcess s items).1,
        lo ≤ r.funding_time_ms ∧ r.funding_time_ms ≤ hi) ∧
    List.Chain' (fun a b => a.funding_time_ms < b.funding_time_ms)
      (binProcess s items).1 ∧
    (∀ t, binLastT items = Option.some t →
        lo ≤ t ∧ ∀ r ∈ (binProcess s items).1, r.funding_time_ms ≤ t) := by
  induction items with
  | nil =>
    intro lo hi _
    refine ⟨rfl, by simp [binProcess], by simp [binProcess], ?_⟩
    intro t ht
    simp [binLastT] at ht
  | cons it rest ih =>
    intro lo hi h
    cases hft : it.fundingTime with
    | asInt t =>
      rw [binItemsOkFrom, hft] at h
      simp only [Bool.and_eq_true, decide_eq_true_eq] at h
      obtain ⟨⟨hlo, hhi⟩, hrest⟩ := h
      obtain ⟨ihok, ihbnd, ihchain, ihlast⟩ := ih hrest
      have hpy : pyIntOf it.fundingTime = Option.some t := by
        rw [hft]; rfl
      have hproc : binProcess s (it :: rest)
          = (binanceRecord s t it.fundingRate :: (binProcess s rest).1,
              (binProcess s rest).2) := by
        rw [binProcess, hpy]
      refine ⟨by rw [hproc]; exact ihok, ?_, ?_, ?_⟩
      · intro r hr
        rw [hproc] at hr
        rcases List.mem_cons.mp hr with rfl | hr
        · exact ⟨hlo, hhi⟩
        · have := ihbnd r hr
          constructor <;> omega
      · rw [hproc]
        refine List.chain'_cons'.mpr ⟨?_, ihchain⟩
        intro y hy
        have := (ihbnd y (List.mem_of_mem_head? hy)).1
        show t < y.funding_time_ms
        omega
      · intro t' ht'
        cases rest with
        | nil =>
          rw [binLastT] at ht'
          simp only [List.getLast?_singleton] at ht'
          rw [hpy] at ht'
          cases ht'
          refine ⟨hlo, ?_⟩
          intro r hr
          rw [hproc] at hr
          rcases List.mem_cons.mp hr with rfl | hr
          · exact le_refl _
          · simp [binProcess] at hr
        | cons it2 rest2 =>
          have ht2 : binLastT (it2 :: rest2) = Option.some t' := by
            rw [binLastT] at ht' ⊢
            rwa [List.getLast?_cons_cons] at ht'
          obtain ⟨hge, hub⟩ := ihlast t' ht2
          refine ⟨by omega, ?_⟩
          intro r hr
          rw [hproc] at hr
          rcases List.mem_cons.mp hr with rfl | hr
          · show t ≤ t'
            omega
          · exact hub r hr
    | missing => rw [binItemsOkFrom, hft] at h; cases h
    | asIso ms => rw [binItemsOkFrom, hft] at h; cases h
    | bad => rw [binItemsOkFrom, hft] at h; cases h

/-- On a valid oracle the Binance pagination returns strictly ascending
records, all at or after the cursor. -/
theorem binLoop_sorted {s : String} {e : Int} {pages : List BinResp} :
    ∀ {cs : Int}, binPagesOk e pages cs = true →
    List.Chain' (fun a b => a.funding_time_ms < b.funding_time_ms)
      (binLoop s e pages cs).1 ∧
    (∀ r ∈ (binLoop s e pages cs).1, cs ≤ r.funding_time_ms) := by
  induction pages with
  | nil => exact fun _ => ⟨by simp [binLoop], by simp [binLoop]⟩
  | cons resp rest ih =>
    intro cs h
    cases resp with
    | fail => simp [binPagesOk] at h
    | notList => simp [binPagesOk] at h
    | page items =>
      rw [binPagesOk] at h
      by_cases h0 : items.length = 0
      · rw [if_pos h0] at h
        simp only [binLoop, h0, if_true]
        exact ⟨List.chain'_nil, by simp⟩
      · rw [if_neg h0] at h
        simp only [Bool.and_eq_true] at h
        obtain ⟨hitems, hrest⟩ := h
        obtain ⟨hok, hbnd, hchain, hlast⟩ :=
          binItemsOk_spec (s := s) hitems
        simp only [binLoop, h0, if_false, hok, if_true]
        by_cases hlim : items.length < binanceLimit
        · rw [if_pos hlim]
          exact ⟨hchain, fun r hr => (hbnd r hr).1⟩
        · rw [if_neg hlim]
          rw [if_neg hlim] at hrest
          cases hlt : binLastT items with
          | none => rw [hlt] at hrest; cases hrest
          | some t =>
            rw [hlt] at hrest
            obtain ⟨hchain2, hbnd2⟩ := ih hrest
            obtain ⟨hget, hub⟩ := hlast t hlt
            refine ⟨?_, ?_⟩
            · refine List.chain'_append.mpr ⟨hchain, hchain2, ?_⟩
              intro x hx y hy
              have hxmem : x ∈ (binProcess s items).1 := by
                rcases List.mem_getLast?_eq_getLast hx with ⟨hne, rfl⟩
                exact List.getLast_mem hne
              have h1 := hub x hxmem
              have h2 := hbnd2 y (List.mem_of_mem_head? hy)
              show x.funding_time_ms < y.funding_time_ms
              omega
            · intro r hr
              rcases List.mem_append.mp hr with hr | hr
              · exact (hbnd r hr).1
              · have := hbnd2 r hr
                omega

/-- A strictly descending Bybit page whose raw timestamps (under the
cursor key `"fundingRateTimestamp"`) lie in `[lo, hi]` and are already
milliseconds. -/
def bybitItemsOkFrom (lo hi : Int) : List BybitItem → Bool
  | [] => true
  | it :: rest =>
    match it.frts with
    | RawVal.asInt t =>
      decide (lo ≤ t) && decide (t ≤ hi) && decide ((10 : Int) ^ 12 ≤ t)
        && bybitItemsOkFrom lo (t - 1) rest
    | _ => false

/-- Validity of a Bybit oracle along the executed path, threading the
backward cursor exactly as the loop does. -/
def bybitPagesOk (startTs : Int) : List BybitResp → Int → Bool
  | [], _ => true
  | BybitResp.fail :: _, _ => false
  | BybitResp.body res :: rest, curEnd =>
    if (bybitExtract res).length = 0 then true
    else
      bybitItemsOkFrom startTs curEnd (bybitExtract res) &&
      (if (bybitExtract res).length < bybitLimit then true
        else
          match bybitLastT (bybitExtract res) with
          | Option.none => false
          | Option.some t => bybitPagesOk startTs rest (t - 1))

/-- On a valid Bybit page every item becomes a record carrying its raw
millisecond timestamp, the records are strictly descending within the
window, and the cursor value bounds them from below. -/
theorem bybitItemsOk_spec {s : String} {lst : List BybitItem} : ∀ {lo hi : Int},
    bybitItemsOkFrom lo hi lst = true →
    (∀ r ∈ lst.filterMap (bybitRow s),
        lo ≤ r.funding_time_ms ∧ r.funding_time_ms ≤ hi) ∧
    List.Chain' (fun a b => b.funding_time_ms < a.funding_time_ms)
      (lst.filterMap (bybitRow s)) ∧
    (∀ t, bybitLastT lst = Option.some t →
        t ≤ hi ∧ ∀ r ∈ lst.filterMap (bybitRow s), t ≤ r.funding_time_ms) := by
  induction lst with
  | nil =>
    intro lo hi _
    refine ⟨by simp, by simp, ?_⟩
    intro t ht
    simp [bybitLastT] at ht
  | cons it rest ih =>
    intro lo hi h
    cases hft : it.frts with
    | asInt t =>
      rw [bybitItemsOkFrom, hft] at h
      simp only [Bool.and_eq_true, decide_eq_true_eq] at h
      obtain ⟨⟨⟨hlo, hhi⟩, hms⟩, hrest⟩ := h
      obtain ⟨ihbnd, ihchain, ihlast⟩ := ih hrest
      have hts : bybitTs it = RawVal.asInt t := by
        unfold bybitTs
        rw [hft]
        rfl
      have hrow : bybitRow s it
          = Option.some (bybitRecord s t it.rate) := by
        unfold bybitRow bybitNormTs
        rw [hts]
        have : pyIntOf (RawVal.asInt t) = Option.some t := rfl
        rw [this]
        simp only [reduceCtorEq, if_false]
        have hnot : ¬ t < 10 ^ 12 := by omega
        rw [if_neg hnot]
      have hfm : (it :: rest).filterMap (bybitRow s)
          = bybitRecord s t it.rate :: rest.filterMap (bybitRow s) := by
        rw [List.filterMap_cons, hrow]
      refine ⟨?_, ?_, ?_⟩
      · intro r hr
        rw [hfm] at hr
        rcases List.mem_cons.mp hr with rfl | hr
        · exact ⟨hlo, hhi⟩
        · have := ihbnd r hr
          constructor <;> omega
      · rw [hfm]
        refine List.chain'_cons'.mpr ⟨?_, ihchain⟩
        intro y hy
        have := (ihbnd y (List.mem_of_mem_head? hy)).2
        show y.funding_time_ms < t
        omega
      · intro t' ht'
        cases rest with
        | nil =>
          rw [bybitLastT] at ht'
          simp only [List.getLast?_singleton] at ht'
          rw [hft] at ht'
          cases ht'
          refine ⟨hhi, ?_⟩
          intro r hr
          rw [hfm] at hr
          rcases List.mem_cons.mp hr with rfl | hr
          · exact le_refl _
          · simp at hr
        | cons it2 rest2 =>
          have ht2 : bybitLastT (it2 :: rest2) = Option.some t' := by
            rw [bybitLastT] at ht' ⊢
            rwa [List.getLast?_cons_cons] at ht'
          obtain ⟨hub, hlb⟩ := ihlast t' ht2
          refine ⟨by omega, ?_⟩
          intro r hr
          rw [hfm] at hr
          rcases List.mem_cons.mp hr with rfl | hr
          · show t' ≤ t
            omega
          · exact hlb r hr
    | missing => rw [bybitItemsOkFrom, hft] at h; cases h
    | asIso ms => rw [bybitItemsOkFrom, hft] at h; cases h
    | bad => rw [bybitItemsOkFrom, hft] at h; cases h

/-- On a valid oracle the Bybit pagination returns strictly descending
records, all at or before the cursor. -/
theorem bybitLoop_sorted {s : String} {st : Int} {pages : List BybitResp} :
    ∀ {ce : Int}, bybitPagesOk st pages ce = true →
    List.Chain' (fun a b => b.funding_time_ms < a.funding_time_ms)
      (bybitLoop s st pages ce).1 ∧
    (∀ r ∈ (bybitLoop s st pages ce).1, r.funding_time_ms ≤ ce) := by
  induction pages with
  | nil => exact fun _ => ⟨by simp [bybitLoop], by simp [bybitLoop]⟩
  | cons resp rest ih =>
    intro ce h
    cases resp with
    | fail => simp [bybitPagesOk] at h
    | body res =>
      rw [bybitPagesOk] at h
      by_cases h0 : (bybitExtract res).length = 0
      · rw [if_pos h0] at h
        simp only [bybitLoop, h0, if_true]
        exact ⟨List.chain'_nil, by simp⟩
      · rw [if_neg h0] at h
        simp only [Bool.and_eq_true] at h
        obtain ⟨hitems, hrest⟩ := h
        obtain ⟨hbnd, hchain, hlast⟩ := bybitItemsOk_spec (s := s) hitems
        simp only [bybitLoop, h0, if_false]
        by_cases hlim : (bybitExtract res).length < bybitLimit
        · rw [if_pos hlim]
          exact ⟨hchain, fun r hr => (hbnd r hr).2⟩
        · rw [if_neg hlim]
          rw [if_neg hlim] at hrest
          cases hlt : bybitLastT (bybitExtract res) with
          | none => rw [hlt] at hrest; cases hrest
          | some t =>
            rw [hlt] at hrest
            obtain ⟨hchain2, hbnd2⟩ := ih hrest
            obtain ⟨hub, hlb⟩ := hlast t hlt
            refine ⟨?_, ?_⟩
            · refine List.chain'_append.mpr ⟨hchain, hchain2, ?_⟩
              intro x hx y hy
              have hxmem : x ∈ (bybitExtract res).filterMap (bybitRow s) := by
                rcases List.mem_getLast?_eq_getLast hx with ⟨hne, rfl⟩
                exact List.getLast_mem hne
              have h1 := hlb x hxmem
              have h2 := hbnd2 y (List.mem_of_mem_head? hy)
              show y.funding_time_ms < x.funding_time_ms
              omega
            · intro r hr
              rcases List.mem_append.mp hr with hr | hr
              · exact (hbnd r hr).2
              · have := hbnd2 r hr
                omega

/-- A strictly ascending Hyperliquid page whose raw timestamps lie in
`[lo, hi]` and are already milliseconds. -/
def hyperItemsOkFrom (lo hi : Int) : List HyperItem → Bool
  | [] => true
  | it :: rest =>
    match it.ts with
    | RawVal.asInt t =>
      decide (lo ≤ t) && decide (t ≤ hi) && decide ((10 : Int) ^ 12 ≤ t)
        && hyperItemsOkFrom (t + 1) hi rest
    | _ => false

/-- Validity of a Hyperliquid oracle along the executed path, threading
the window cursor exactly as the loop does (empty pages advance to the
next window). -/
def hyperPagesOk (endMs : Int) : List HyperResp → Int → Bool
  | [], _ => true
  | HyperResp.fail :: _, _ => false
  | HyperResp.notList :: _, _ => false
  | HyperResp.page items :: rest, curStart =>
    if endMs < curStart then true
    else if items.length = 0 then
      hyperPagesOk endMs rest (min endMs (curStart + windowMs - 1) + 1)
    else
      hyperItemsOkFrom curStart (min endMs (curStart + windowMs - 1)) items &&
      match hyperLastT items with
      | Option.none => false
      | Option.some t => hyperPagesOk endMs rest (t + 1)

/-- On a valid Hyperliquid page every item becomes a record carrying its
raw millisecond timestamp, strictly ascending within the window, and the
cursor value bounds them from above. -/
theorem hyperItemsOk_spec {s : String} {items : List HyperItem} :
    ∀ {lo hi : Int}, hyperItemsOkFrom lo hi items = true →
    (∀ r ∈ items.filterMap (hyperRow s),
        lo ≤ r.funding_time_ms ∧ r.funding_time_ms ≤ hi) ∧
    List.Chain' (fun a b => a.funding_time_ms < b.funding_time_ms)
      (items.filterMap (hyperRow s)) ∧
    (∀ t, hyperLastT items = Option.some t →
        lo ≤ t ∧ ∀ r ∈ items.filterMap (hyperRow s),
          r.funding_time_ms ≤ t) := by
  induction items with
  | nil =>
    intro lo hi _
    refine ⟨by simp, by simp, ?_⟩
    intro t ht
    simp [hyperLastT] at ht
  | cons it rest ih =>
    intro lo hi h
    cases hft : it.ts with
    | asInt t =>
      rw [hyperItemsOkFrom, hft] at h
      simp only [Bool.and_eq_true, decide_eq_true_eq] at h
      obtain ⟨⟨⟨hlo, hhi⟩, hms⟩, hrest⟩ := h
      obtain ⟨ihbnd, ihchain, ihlast⟩ := ih hrest
      have hrow : hyperRow s it
          = Option.some (hyperRecord s t it.rate) := by
        unfold hyperRow hyperNormTs
        rw [hft]
        have : pyIntOf (RawVal.asInt t) = Option.some t := rfl
        rw [this]
        simp only [reduceCtorEq, if_false]
        have hnot : ¬ t < 10 ^ 12 := by omega
        rw [if_neg hnot]
      have hfm : (it :: rest).filterMap (hyperRow s)
          = hyperRecord s t it.rate :: rest.filterMap (hyperRow s) := by
        rw [List.filterMap_cons, hrow]
      refine ⟨?_, ?_, ?_⟩
      · intro r hr
        rw [hfm] at hr
        rcases List.mem_cons.mp hr with rfl | hr
        · exact ⟨hlo, hhi⟩
        · have := ihbnd r hr
          constructor <;> omega
      · rw [hfm]
        refine List.chain'_cons'.mpr ⟨?_, ihchain⟩
        intro y hy
        have := (ihbnd y (List.mem_of_mem_head? hy)).1
        show t < y.funding_time_ms
        omega
      · intro t' ht'
        cases rest with
        | nil =>
          rw [hyperLastT] at ht'
          simp only [List.getLast?_singleton] at ht'
          rw [hft] at ht'
          cases ht'
          refine ⟨hlo, ?_⟩
          intro r hr
          rw [hfm] at hr
          rcases List.mem_cons.mp hr with rfl | hr
          · exact le_refl _
          · simp at hr
        | cons it2 rest2 =>
          have ht2 : hyperLastT (it2 :: rest2) = Option.some t' := by
            rw [hyperLastT] at ht' ⊢
            rwa [List.getLast?_cons_cons] at ht'
          obtain ⟨hge, hub⟩ := ihlast t' ht2
          refine ⟨by omega, ?_⟩
          intro r hr
          rw [hfm] at hr
          rcases List.mem_cons.mp hr with rfl | hr
          · show t ≤ t'
            omega
          · exact hub r hr
    | missing => rw [hyperItemsOkFrom, hft] at h; cases h
    | asIso ms => rw [hyperItemsOkFrom, hft] at h; cases h
    | bad => rw [hyperItemsOkFrom, hft] at h; cases h

/-- On a valid oracle the Hyperliquid window loop accumulates strictly
ascending records, all at or after the cursor. -/
theorem hyperLoop_sorted {s c : String} {e : Int} {pages : List HyperResp} :
    ∀ {cs : Int}, hyperPagesOk e pages cs = true →
    List.Chain' (fun a b => a.funding_time_ms < b.funding_time_ms)
      (hyperLoop s c e pages cs).1 ∧
    (∀ r ∈ (hyperLoop s c e pages cs).1, cs ≤ r.funding_time_ms) := by
  have hw : windowMs = 2592000000 := rfl
  induction pages with
  | nil =>
    intro cs _
    constructor
    · simp only [hyperLoop]
      split <;> exact List.chain'_nil
    · simp only [hyperLoop]
      split <;> simp
  | cons resp rest ih =>
    intro cs h
    cases resp with
    | fail => simp [hyperPagesOk] at h
    | notList => simp [hyperPagesOk] at h
    | page items =>
      rw [hyperPagesOk] at h
      by_cases hcs : e < cs
      · simp only [hyperLoop, hcs, if_true]
        exact ⟨List.chain'_nil, by simp⟩
      · rw [if_neg hcs] at h
        simp only [hyperLoop, hcs, if_false]
        by_cases h0 : items.length = 0
        · rw [if_pos h0] at h
          simp only [h0, if_true]
          obtain ⟨ihchain, ihbnd⟩ := ih h
          refine ⟨ihchain, ?_⟩
          intro r hr
          have := ihbnd r hr
          omega
        · rw [if_neg h0] at h
          simp only [h0, if_false, Bool.and_eq_true] at h ⊢
          obtain ⟨hitems, hrest⟩ := h
          obtain ⟨hbnd, hchain, hlast⟩ := hyperItemsOk_spec (s := s) hitems
          cases hlt : hyperLastT items with
          | none => rw [hlt] at hrest; cases hrest
          | some t =>
            rw [hlt] at hrest
            obtain ⟨hchain2, hbnd2⟩ := ih hrest
            obtain ⟨hge, hub⟩ := hlast t hlt
            refine ⟨?_, ?_⟩
            · refine List.chain'_append.mpr ⟨hchain, hchain2, ?_⟩
              intro x hx y hy
              have hxmem : x ∈ items.filterMap (hyperRow s) := by
                rcases List.mem_getLast?_eq_getLast hx with ⟨hne, rfl⟩
                exact List.getLast_mem hne
              have h1 := hub x hxmem
              have h2 := hbnd2 y (List.mem_of_mem_head? hy)
              show x.funding_time_ms < y.funding_time_ms
              omega
            · intro r hr
              rcases List.mem_append.mp hr with hr | hr
              · exact (hbnd r hr).1
              · have := hbnd2 r hr
                omega

instance : IsTrans FundingRecord
    (fun a b => a.funding_time_ms < b.funding_time_ms) :=
  ⟨fun _ _ _ h1 h2 => lt_trans h1 h2⟩

/-- Deduplication does nothing on a list whose keys are pairwise distinct
and avoid `seen`. -/
theorem dedupByPair_eq_self : ∀ {l : List FundingRecord}
    {seen : List (Int × Option String)},
    List.Pairwise (fun a b => dedupKey a ≠ dedupKey b) l →
    (∀ r ∈ l, dedupKey r ∉ seen) → dedupByPair l seen = l := by
  intro l
  induction l with
  | nil => intro seen _ _; rfl
  | cons x xs ih =>
    intro seen hpw hseen
    have hx : dedupKey x ∉ seen := hseen x (List.mem_cons_self _ _)
    unfold dedupByPair
    rw [if_neg hx]
    congr 1
    refine ih (List.pairwise_cons.mp hpw).2 ?_
    intro r hr
    intro hmem
    rcases List.mem_cons.mp hmem with heq | hmem
    · exact (List.pairwise_cons.mp hpw).1 r hr heq.symm
    · exact hseen r (List.mem_cons_of_mem _ hr) hmem

/-- The final dedup-and-sort step is the identity on a strictly ascending
record list. -/
theorem hyperFinal_of_chain {l : List FundingRecord}
    (h : List.Chain' (fun a b => a.funding_time_ms < b.funding_time_ms) l) :
    hyperFinal l = l := by
  have hpw : List.Pairwise
      (fun a b : FundingRecord =>
        a.funding_time_ms < b.funding_time_ms) l :=
    List.chain'_iff_pairwise.mp h
  have hkeys : List.Pairwise (fun a b => dedupKey a ≠ dedupKey b) l := by
    refine hpw.imp ?_
    intro a b hlt heq
    have : a.funding_time_ms = b.funding_time_ms := congrArg Prod.fst heq
    omega
  have hsorted : List.Sorted msLE l := by
    refine hpw.imp ?_
    intro a b hlt
    exact le_of_lt hlt
  unfold hyperFinal
  rw [dedupByPair_eq_self hkeys (by simp)]
  exact hsorted.insertionSort_eq

/-- Validity of a Hyperliquid oracle exactly as claim C1 assumes it: every
executed page is a list of entries with integer timestamps lying in the
window requested at that moment — with no monotonicity or uniqueness
assumption.  Comparison definition following the claim's words. -/
def claimC1WindowOk (endMs : Int) : List HyperResp → Int → Bool
  | [], _ => true
  | HyperResp.fail :: _, _ => false
  | HyperResp.notList :: _, _ => false
  | HyperResp.page items :: rest, curStart =>
    if endMs < curStart then true
    else if items.length = 0 then
      claimC1WindowOk endMs rest (min endMs (curStart + windowMs - 1) + 1)
    else
      (items.all fun it =>
        match it.ts with
        | RawVal.asInt t =>
          decide (curStart ≤ t)
            && decide (t ≤ min endMs (curStart + windowMs - 1))
        | _ => false) &&
      match hyperLastT items with
      | Option.none => false
      | Option.some t => claimC1WindowOk endMs rest (t + 1)

/-- Claim C1, counterexample: one valid in-window Hyperliquid page holding
two entries with the same timestamp but different rates.  Deduplication by
the `(funding_time_ms, funding_rate)` pair keeps both, so the returned
list carries the same `funding_time_ms` twice — the claimed uniqueness of
`funding_time_ms` fails even though every page response is a valid list of
entries within the requested window. -/
theorem C1_counterexample :
    claimC1WindowOk 1736899199999
        [HyperResp.page [⟨RawVal.asInt 1736899199999, Option.some "0.0001"⟩,
          ⟨RawVal.asInt 1736899199999, Option.some "0.0002"⟩]]
        1734307200000 = true ∧
    ((fetch_hyper_funding_for_symbol "ETH" 1734307200000 1736899199999
        [HyperResp.page [⟨RawVal.asInt 1736899199999, Option.some "0.0001"⟩,
          ⟨RawVal.asInt 1736899199999, Option.some "0.0002"⟩]]).1.map
      (fun r => r.funding_time_ms))
      = [1736899199999, 1736899199999] := by
  refine ⟨by decide, by decide⟩

/-- Claim C1 as amended: when every executed page is a valid list of
entries whose raw timestamps lie in the window requested at that moment
and are strictly monotone in the exchange's pagination direction (already
in milliseconds for the normalizing fetchers), each persisted per-symbol
sequence — the Binance rows, the reversed Bybit rows, and the Hyperliquid
dedup-and-sorted rows — is strictly ascending in `funding_time_ms`, hence
sorted with no two records sharing a `funding_time_ms`.  (Without
per-page strict monotonicity, the Hyperliquid output guarantees only
sortedness and uniqueness of the `(funding_time_ms, funding_rate)` pair,
as the counterexample shows.) -/
theorem C1_sorted_unique (sB sY sH : String) (stB eB stY eY stH eH : Int)
    (pB : List BinResp) (pY : List BybitResp) (pH : List HyperResp)
    (hB : binPagesOk eB pB stB = true)
    (hY : bybitPagesOk stY pY eY = true)
    (hH : hyperPagesOk eH pH stH = true) :
    List.Chain' (fun a b => a.funding_time_ms < b.funding_time_ms)
      (fetch_binance_funding sB stB eB pB).1 ∧
    List.Chain' (fun a b => a.funding_time_ms < b.funding_time_ms)
      (bybitPersisted sY stY eY pY) ∧
    List.Chain' (fun a b => a.funding_time_ms < b.funding_time_ms)
      (fetch_hyper_funding_for_symbol sH stH eH pH).1 := by
  refine ⟨?_, ?_, ?_⟩
  · exact (binLoop_sorted (s := sB) hB).1
  · show List.Chain' _ (bybitLoop sY stY pY eY).1.reverse
    rw [List.chain'_reverse]
    exact (bybitLoop_sorted (s := sY) hY).1
  · show List.Chain' _ (hyperFinal (hyperLoop sH
      (extract_coin_from_symbol sH) eH pH stH).1)
    rw [hyperFinal_of_chain (hyperLoop_sorted (s := sH)
      (c := extract_coin_from_symbol sH) hH).1]
    exact (hyperLoop_sorted (s := sH)
      (c := extract_coin_from_symbol sH) hH).1

/-- Witness for C1: concrete valid two-entry oracles for each fetcher. -/
theorem C1_witness :
    binPagesOk 5 [BinResp.page [⟨RawVal.asInt 1, Option.some "a"⟩,
        ⟨RawVal.asInt 2, Option.some "b"⟩]] 0 = true ∧
    bybitPagesOk 1600000000000
      [BybitResp.body (BybitResult.asList
        [⟨RawVal.asInt 1700000000001, RawVal.missing, Option.some "c"⟩,
          ⟨RawVal.asInt 1700000000000, RawVal.missing,
            Option.some "d"⟩])] 1800000000000 = true ∧
    hyperPagesOk 1700000000500
      [HyperResp.page [⟨RawVal.asInt 1700000000100, Option.some "e"⟩]]
      1700000000000 = true ∧
    List.Chain' (fun a b => a.funding_time_ms < b.funding_time_ms)
      (fetch_binance_funding "B" 0 5
        [BinResp.page [⟨RawVal.asInt 1, Option.some "a"⟩,
          ⟨RawVal.asInt 2, Option.some "b"⟩]]).1 ∧
    List.Chain' (fun a b => a.funding_time_ms < b.funding_time_ms)
      (bybitPersisted "Y" 1600000000000 1800000000000
        [BybitResp.body (BybitResult.asList
          [⟨RawVal.asInt 1700000000001, RawVal.missing, Option.some "c"⟩,
            ⟨RawVal.asInt 1700000000000, RawVal.missing,
              Option.some "d"⟩])]) ∧
    List.Chain' (fun a b => a.funding_time_ms < b.funding_time_ms)
      (fetch_hyper_funding_for_symbol "H" 1700000000000 1700000000500
        [HyperResp.page [⟨RawVal.asInt 1700000000100,
          Option.some "e"⟩]]).1 :=
  ⟨by decide, by decide, by decide,
    (C1_sorted_unique "B" "Y" "H" 0 5 1600000000000 1800000000000
      1700000000000 1700000000500
      [BinResp.page [⟨RawVal.asInt 1, Option.some "a"⟩,
        ⟨RawVal.asInt 2, Option.some "b"⟩]]
      [BybitResp.body (BybitResult.asList
        [⟨RawVal.asInt 1700000000001, RawVal.missing, Option.some "c"⟩,
          ⟨RawVal.asInt 1700000000000, RawVal.missing, Option.some "d"⟩])]
      [HyperResp.page [⟨RawVal.asInt 1700000000100, Option.some "e"⟩]]
      (by decide) (by decide) (by decide)).1,
    (C1_sorted_unique "B" "Y" "H" 0 5 1600000000000 1800000000000
      1700000000000 1700000000500
      [BinResp.page [⟨RawVal.asInt 1, Option.some "a"⟩,
        ⟨RawVal.asInt 2, Option.some "b"⟩]]
      [BybitResp.body (BybitResult.asList
        [⟨RawVal.asInt 1700000000001, RawVal.missing, Option.some "c"⟩,
          ⟨RawVal.asInt 1700000000000, RawVal.missing, Option.some "d"⟩])]
      [HyperResp.page [⟨RawVal.asInt 1700000000100, Option.some "e"⟩]]
      (by decide) (by decide) (by decide)).2.1,
    (C1_sorted_unique "B" "Y" "H" 0 5 1600000000000 1800000000000
      1700000000000 1700000000500
      [BinResp.page [⟨RawVal.asInt 1, Option.some "a"⟩,
        ⟨RawVal.asInt 2, Option.some "b"⟩]]
      [BybitResp.body (BybitResult.asList
        [⟨RawVal.asInt 1700000000001, RawVal.missing, Option.some "c"⟩,
          ⟨RawVal.asInt 1700000000000, RawVal.missing, Option.some "d"⟩])]
      [HyperResp.page [⟨RawVal.asInt 1700000000100, Option.some "e"⟩]]
      (by decide) (by decide) (by decide)).2.2⟩

/-!
## Claim C9: ISO rendering and round-trip
-/

/-- Inverse of the month-table interval chain, checked over all 366
days-of-year. -/
theorem monthDay_inverse : ∀ doy : Nat, doy < 366 → ∀ L : Bool,
    doy < 365 + (if L then 1 else 0) →
    daysBeforeMonth L (monthDayOfDoy L doy).1 + ((monthDayOfDoy L doy).2 - 1)
      = doy ∧ 1 ≤ (monthDayOfDoy L doy).2 := by
  set_option maxRecDepth 10000 in decide

/-- Propositional form of the leap-year test. -/
theorem isLeapYear_iff (y : Int) :
    isLeapYear y = true ↔ (y % 4 = 0 ∧ (y % 100 ≠ 0 ∨ y % 400 = 0)) := by
  simp [isLeapYear]

/-- The `_ymd2ord` computation inverts the `_ord2ymd` cascade on every day
number. -/
theorem ord2ymd_roundtrip (n : Int) :
    ymd2ord (ord2ymd n).1 (ord2ymd n).2.1 (ord2ymd n).2.2 = n := by
  obtain ⟨q, r, hn, hr⟩ : ∃ (q : Int) (r : Nat),
      n = 146097 * q + (r : Int) ∧ r < 146097 :=
    ⟨n / 146097, (n % 146097).toNat, by omega, by omega⟩
  have e1 : n / 146097 = q := by omega
  have e2 : (n % 146097).toNat = r := by omega
  obtain ⟨a, r2, ha, ha2⟩ : ∃ a r2, r = 36524 * a + r2 ∧ r2 < 36524 :=
    ⟨r / 36524, r % 36524, by omega, by omega⟩
  obtain ⟨b, r3, hb, hb2⟩ : ∃ b r3, r2 = 1461 * b + r3 ∧ r3 < 1461 :=
    ⟨r2 / 1461, r2 % 1461, by omega, by omega⟩
  obtain ⟨c, r4, hc, hc2⟩ : ∃ c r4, r3 = 365 * c + r4 ∧ r4 < 365 :=
    ⟨r3 / 365, r3 % 365, by omega, by omega⟩
  have e3 : r / 36524 = a := by omega
  have e4 : r % 36524 = r2 := by omega
  have e5 : r2 / 1461 = b := by omega
  have e6 : r2 % 1461 = r3 := by omega
  have e7 : r3 / 365 = c := by omega
  have e8 : r3 % 365 = r4 := by omega
  simp only [ord2ymd, e1, e2, e3, e4, e5, e6, e7, e8]
  by_cases hcase : (c = 4 ∨ a = 4)
  · rw [if_pos hcase]
    dsimp only
    unfold ymd2ord
    have hleap : isLeapYear (q * 400
        + ((100 * a + 4 * b + c : Nat) : Int)) = true := by
      rw [isLeapYear_iff]
      rcases hcase with h5 | h5
      · refine ⟨by omega, Or.inl ?_⟩
        have hb23 : b ≤ 23 := by omega
        omega
      · exact ⟨by omega, Or.inr (by omega)⟩
    rw [hleap]
    simp only [daysBeforeMonth, if_true]
    rcases hcase with h5 | h5
    · have hb23 : b ≤ 23 := by omega
      have h4 : (q * 400 + ((100 * a + 4 * b + c : Nat) : Int) - 1) / 4
          = q * 100 + 25 * (a : Int) + b := by omega
      have h100 : (q * 400 + ((100 * a + 4 * b + c : Nat) : Int) - 1) / 100
          = q * 4 + a := by omega
      have h400 : (q * 400 + ((100 * a + 4 * b + c : Nat) : Int) - 1) / 400
          = q := by omega
      omega
    · have hb0 : b = 0 := by omega
      have hc0 : c = 0 := by omega
      have h4 : (q * 400 + ((100 * a + 4 * b + c : Nat) : Int) - 1) / 4
          = q * 100 + 99 := by omega
      have h100 : (q * 400 + ((100 * a + 4 * b + c : Nat) : Int) - 1) / 100
          = q * 4 + 3 := by omega
      have h400 : (q * 400 + ((100 * a + 4 * b + c : Nat) : Int) - 1) / 400
          = q := by omega
      omega
  · rw [if_neg hcase]
    dsimp only
    unfold ymd2ord
    generalize isLeapYear (q * 400
        + ((100 * a + 4 * b + c : Nat) : Int) + 1) = L
    obtain ⟨hinv, hd1⟩ := monthDay_inverse r4 (by omega) L
      (by cases L <;> simp <;> omega)
    have ha3 : a ≤ 3 := by omega
    have hc3 : c ≤ 3 := by omega
    have hb24 : b ≤ 24 := by omega
    have h4 : (q * 400 + ((100 * a + 4 * b + c : Nat) : Int) + 1 - 1) / 4
        = q * 100 + 25 * (a : Int) + b := by omega
    have h100 : (q * 400 + ((100 * a + 4 * b + c : Nat) : Int) + 1 - 1) / 100
        = q * 4 + a := by omega
    have h400 : (q * 400 + ((100 * a + 4 * b + c : Nat) : Int) + 1 - 1) / 400
        = q := by omega
    omega

/-- Round-trip of the datetime conversion: decoding the UTC datetime of
any epoch-millisecond value under UTC interpretation yields the value
back. -/
theorem ms_from_dt_dt_from_ms (t : Int) : ms_from_dt (dt_from_ms t) = t := by
  simp only [dt_from_ms, ms_from_dt]
  rw [ord2ymd_roundtrip]
  simp only [epochDayNumber]
  omega

/-- Claim C9: every record any of the three fetchers produces has
`funding_time_iso` equal to the `iso_from_ms` rendering of its
`funding_time_ms` (derived, never independent), and for every integer
millisecond value the rendered UTC datetime decodes back to the same
value under UTC interpretation. -/
theorem C9_iso_roundtrip (sB sY sH : String) (stB eB stY eY stH eH : Int)
    (pB : List BinResp) (pY : List BybitResp) (pH : List HyperResp) :
    (∀ r ∈ (fetch_binance_funding sB stB eB pB).1,
        r.funding_time_iso = iso_from_ms r.funding_time_ms) ∧
    (∀ r ∈ (fetch_bybit_funding_v5 sY stY eY pY).1,
        r.funding_time_iso = iso_from_ms r.funding_time_ms) ∧
    (∀ r ∈ (fetch_hyper_funding_for_symbol sH stH eH pH).1,
        r.funding_time_iso = iso_from_ms r.funding_time_ms) ∧
    (∀ tm : Int, ms_from_dt (dt_from_ms tm) = tm) := by
  refine ⟨?_, ?_, ?_, ms_from_dt_dt_from_ms⟩
  · intro r hr
    rcases binLoop_shape hr with ⟨ft, fr, rfl⟩
    rfl
  · intro r hr
    rcases bybitLoop_shape hr with ⟨ft, fr, rfl⟩
    rfl
  · intro r hr
    rcases hyperLoop_shape (mem_hyperFinal hr) with ⟨ft, fr, rfl⟩
    rfl

/-- Witness for C9: the record of a one-page Binance run renders
1970-01-01T00:00:00Z for millisecond 0, and it round-trips. -/
theorem C9_witness :
    ((⟨"binance", "BTCUSDT", 0, "1970-01-01T00:00:00Z",
        Option.some "0.0001"⟩ : FundingRecord) ∈
      (fetch_binance_funding "BTCUSDT" 0 9
        [BinResp.page [⟨RawVal.asInt 0, Option.some "0.0001"⟩]]).1) ∧
    FundingRecord.funding_time_iso ⟨"binance", "BTCUSDT", 0,
        "1970-01-01T00:00:00Z", Option.some "0.0001"⟩
      = iso_from_ms (FundingRecord.funding_time_ms ⟨"binance", "BTCUSDT", 0,
          "1970-01-01T00:00:00Z", Option.some "0.0001"⟩) ∧
    ms_from_dt (dt_from_ms 1700000000123) = 1700000000123 :=
  ⟨by decide,
    (C9_iso_roundtrip "BTCUSDT" "Y" "H" 0 9 0 9 0 9
        [BinResp.page [⟨RawVal.asInt 0, Option.some "0.0001"⟩]] [] []).1
      ⟨"binance", "BTCUSDT", 0, "1970-01-01T00:00:00Z", Option.some "0.0001"⟩
      (by decide),
    (C9_iso_roundtrip "BTCUSDT" "Y" "H" 0 9 0 9 0 9
        [BinResp.page [⟨RawVal.asInt 0, Option.some "0.0001"⟩]] [] []).2.2.2
      1700000000123⟩
